import Mathlib

/-!
Verification of the incremental document store and derivation pipeline of the
rails-pr-digest repository.  The TypeScript sources (`scripts/formatter.ts`,
`scripts/file-manager.ts`, `scripts/rss-generator.ts`) are shallowly embedded
here: file contents are `List Char`, the JavaScript regular-expression scans
are implemented as executable character-list scanners with the same matching
semantics (including lazy groups and `matchAll`'s skip-past-the-match
behaviour), and the ambient clock (`new Date()`) is passed explicitly as a
`SDate` argument.  Dates are modelled at day granularity, which is the
granularity the pipeline itself stores and compares (`§8 of the spec`):
`toLocaleDateString("ja-JP")` renders `y/m/d`, and `toISOString` is rendered
as the padded `yyyy-mm-dd` day prefix.  `Date.UTC` field normalisation for
out-of-range month/day values is not modelled; all theorems restrict dates to
the in-range values the formatter produces, where normalisation is the
identity.  JavaScript `parseInt`'s sign handling is not modelled (only
nonnegative numerals occur in the scanned formats).
-/

namespace RailsPRDigest

/-- File contents and string values, as character lists. -/
abbrev Chars := List Char

/-- Coerce a Lean string literal to the character-list representation. -/
def str (s : String) : Chars := s.data

/-- A calendar date at day granularity (the granularity the pipeline stores). -/
structure SDate where
  y : Nat
  m : Nat
  d : Nat
  deriving DecidableEq, Repr

/-- Decimal digit character for a value below ten. -/
def digitChar : Nat → Char
  | 0 => '0' | 1 => '1' | 2 => '2' | 3 => '3' | 4 => '4'
  | 5 => '5' | 6 => '6' | 7 => '7' | 8 => '8' | 9 => '9'
  | _ + 10 => '0'

/-- Fuelled base-10 rendering of a natural number (JS number-to-string). -/
def natCharsAux : Nat → Nat → Chars
  | 0, _ => []
  | f + 1, n =>
    if n < 10 then [digitChar n]
    else natCharsAux f (n / 10) ++ [digitChar (n % 10)]

/-- Base-10 rendering of a natural number, as JavaScript renders numbers. -/
def natChars (n : Nat) : Chars := natCharsAux (n + 1) n

/-- Numeric value of a digit list (the semantics of `Number.parseInt` on an
all-digit numeral). -/
def digitsToNat (w : Chars) : Nat :=
  w.foldl (fun a c => a * 10 + (c.toNat - 48)) 0

/-- Two-digit zero padding, as in `String(month).padStart(2, "0")` and in the
month/day fields of `toISOString`. -/
def pad2 (n : Nat) : Chars := if n < 10 then '0' :: natChars n else natChars n

/-- Four-digit zero padding for the year field of `toISOString`. -/
def pad4 (n : Nat) : Chars :=
  if n < 10 then '0' :: '0' :: '0' :: natChars n
  else if n < 100 then '0' :: '0' :: natChars n
  else if n < 1000 then '0' :: natChars n
  else natChars n

/-- The `yyyy-mm-dd` day prefix of `new Date(...).toISOString()`. -/
def isoDateChars (d : SDate) : Chars :=
  pad4 d.y ++ '-' :: (pad2 d.m ++ '-' :: pad2 d.d)

/-- The `y/m/d` rendering of `toLocaleDateString("ja-JP")` (unpadded). -/
def jpDateChars (d : SDate) : Chars :=
  natChars d.y ++ '/' :: (natChars d.m ++ '/' :: natChars d.d)

/-- JavaScript whitespace test for the characters relevant to this pipeline
(`trim` and the `\s` character class). -/
def isWsChar (c : Char) : Bool :=
  c = ' ' || c = '\n' || c = '\t' || c = '\r'

/-- JavaScript `String.prototype.trim`. -/
def jsTrim (s : Chars) : Chars :=
  ((s.dropWhile isWsChar).reverse.dropWhile isWsChar).reverse

/-- Strip a literal prefix, returning the remainder on success (the literal
part of a regular-expression match). -/
def dropLit : Chars → Chars → Option Chars
  | [], s => some s
  | _ :: _, [] => none
  | p :: ps, c :: cs => if p = c then dropLit ps cs else none

/-- Index of the first occurrence of `needle`, the semantics of
`String.prototype.indexOf` (with `none` for the `-1` result). -/
def idxOf? (needle : Chars) : Chars → Option Nat
  | [] => if needle.isEmpty then some 0 else none
  | c :: cs =>
    if needle.isPrefixOf (c :: cs) then some 0
    else (idxOf? needle cs).map (· + 1)

/-- `indexOf` with a nonnegative `fromIndex`. -/
def idxOfFrom? (needle s : Chars) (start : Nat) : Option Nat :=
  (idxOf? needle (s.drop start)).map (· + start)

/-- Nonnegative-numeral semantics of `Number.parseInt(-, 10)`: skip leading
whitespace, then read a maximal digit run; `none` is `NaN`. -/
def jsParseNat? (w : Chars) : Option Nat :=
  let ds := (w.dropWhile isWsChar).takeWhile Char.isDigit
  if ds.isEmpty then none else some (digitsToNat ds)

/-! ## Entry Formatter (`scripts/formatter.ts`) -/

/-- One merged pull request as supplied by the fetch collaborator
(`PRSearchResult`): number, title, canonical URL, merge date (day
granularity, `none` for an unmerged record), and optional author
(login and profile URL). -/
structure PRRecord where
  number : Nat
  title : Chars
  html_url : Chars
  merged_at : Option SDate
  user : Option (Chars × Chars)

/-- Rendering of the merge date in `formatPREntry`:
`new Date(pr.merged_at ?? "").toLocaleDateString("ja-JP")`; a null
`merged_at` yields an invalid date, rendered as the literal
`Invalid Date`. -/
def jpDateOpt : Option SDate → Chars
  | none => str "Invalid Date"
  | some d => jpDateChars d

/-- `formatPREntry` of `scripts/formatter.ts`: renders one record plus its
summary into a self-contained markdown Entry Block. -/
def formatPREntry (pr : PRRecord) (summary : Chars) : Chars :=
  str "\n## [#" ++ natChars pr.number ++ str "](" ++ pr.html_url ++ str ") " ++
  pr.title ++ str "\n\n**マージ日**: " ++ jpDateOpt pr.merged_at ++
  str " | **作成者**: [@" ++
  (match pr.user with | some u => u.1 | none => str "unknown") ++ str "](" ++
  (match pr.user with | some u => u.2 | none => str "#") ++ str ")\n\n" ++
  summary ++ str "\n\n---\n"

/-! ## Structured-Data Extractor (`file-manager.ts`, `extractPRsFromMarkdown`)

The heading pattern is
`/## \[#(\d+)\]\((https:\/\/github\.com\/rails\/rails\/pull\/\d+)\) (.+?)$/gm`.
A match can begin at any position; the greedy `\d+` groups are each followed
by a non-digit literal, so they read a maximal digit run with no
backtracking; the lazy `(.+?)$` title group extends to the end of the line
(at least one character).  `matchAll` resumes scanning after the end of each
match. -/

/-- The fixed canonical URL prefix in the heading pattern. -/
def railsPullLit : Chars := str "https://github.com/rails/rails/pull/"

/-- Attempt the heading pattern at the head of `s`; on success return the
parsed number, the URL capture, the raw title capture, and the remainder of
`s` after the match. -/
def matchHeadingAt (s : Chars) : Option (Nat × Chars × Chars × Chars) :=
  match dropLit (str "## [#") s with
  | none => none
  | some r1 =>
    let ds := r1.takeWhile Char.isDigit
    if ds.isEmpty then none else
    match dropLit (str "](") (r1.drop ds.length) with
    | none => none
    | some r2 =>
      match dropLit railsPullLit r2 with
      | none => none
      | some r3 =>
        let ds2 := r3.takeWhile Char.isDigit
        if ds2.isEmpty then none else
        match dropLit (str ") ") (r3.drop ds2.length) with
        | none => none
        | some r4 =>
          let t := r4.takeWhile (· ≠ '\n')
          if t.isEmpty then none
          else some (digitsToNat ds, railsPullLit ++ ds2, t, r4.drop t.length)

/-- One heading match: captures plus the suffix of the document starting at
the match (which encodes `match.index` positionally). -/
structure HeadingM where
  num : Nat
  url : Chars
  title : Chars
  suffix : Chars
  deriving DecidableEq

/-- Fuelled `matchAll` scan for the heading pattern: try each position left
to right and resume after the end of a successful match. -/
def headScan : Nat → Chars → List HeadingM
  | 0, _ => []
  | _ + 1, [] => []
  | f + 1, c :: cs =>
    match matchHeadingAt (c :: cs) with
    | some (n, u, t, rest) => ⟨n, u, t, c :: cs⟩ :: headScan f rest
    | none => headScan f cs

/-- All heading matches of a document, in positional order. -/
def headingMatches (content : Chars) : List HeadingM :=
  headScan content.length content

/-- No suffix position of the document admits a heading match (the proof
interface for heading-free regions). -/
def HeadFree (s : Chars) : Prop :=
  ∀ t, t <:+ s → t ≠ [] → matchHeadingAt t = none

/-! The metadata pattern is
`/\*\*マージ日\*\*: (.+?) \| \*\*作成者\*\*: \[@(.+?)\]\((.+?)\)/` (no `g`
flag: first match wins).  Each lazy `(.+?)` group reads the shortest
nonempty newline-free run whose continuation matches, backtracking to the
next longer candidate when a later group fails. -/

/-- All candidate splits for a lazy `(.+?)` group followed by the literal
`stop`: pairs of (captured run, remainder after `stop`) in order of
increasing capture length, never crossing a newline. -/
def lazyCands (stop : Chars) : Chars → List (Chars × Chars)
  | [] => []
  | c :: cs =>
    if c = '\n' then []
    else
      (match dropLit stop cs with
       | some r => [([c], r)]
       | none => []) ++
      (lazyCands stop cs).map (fun p => (c :: p.1, p.2))

/-- First candidate for which the continuation succeeds (regex
backtracking across a lazy group). -/
def firstSome {α β : Type} (f : α → Option β) : List α → Option β
  | [] => none
  | a :: as' =>
    match f a with
    | some b => some b
    | none => firstSome f as'

/-- Third metadata group: `(.+?)\)`, innermost, no further constraints. -/
def metaUrlGroup (s : Chars) : Option Chars :=
  (lazyCands (str ")") s).head?.map (·.1)

/-- Second and third metadata groups: `(.+?)\]\((.+?)\)`. -/
def metaAuthorGroup (s : Chars) : Option (Chars × Chars) :=
  firstSome
    (fun p => (metaUrlGroup p.2).map fun u => (p.1, u))
    (lazyCands (str "](") s)

/-- Metadata groups after the opening literal:
`(.+?) \| \*\*作成者\*\*: \[@(.+?)\]\((.+?)\)`. -/
def metaDateGroup (s : Chars) : Option (Chars × Chars × Chars) :=
  firstSome
    (fun p => (metaAuthorGroup p.2).map fun au => (p.1, au.1, au.2))
    (lazyCands (str " | **作成者**: [@") s)

/-- Attempt the metadata pattern at the head of `s`, returning the date,
author, and author-URL captures. -/
def metaAt (s : Chars) : Option (Chars × Chars × Chars) :=
  match dropLit (str "**マージ日**: ") s with
  | none => none
  | some r => metaDateGroup r

/-- First match of the metadata pattern anywhere in `s` (`String.match`
with a non-global regex). -/
def metaFirst : Chars → Option (Chars × Chars × Chars)
  | [] => none
  | c :: cs =>
    match metaAt (c :: cs) with
    | some x => some x
    | none => metaFirst cs

/-- Split on the delimiter class `[/\s:]` of `convertJapaneseDateToISO`
(consecutive delimiters yield empty parts, as `String.split` does). -/
def splitDateParts : Chars → List Chars
  | [] => [[]]
  | c :: cs =>
    if c = '/' || c = ':' || isWsChar c then
      [] :: splitDateParts cs
    else
      match splitDateParts cs with
      | [] => [[c]]
      | p :: ps => (c :: p) :: ps

/-- `convertJapaneseDateToISO`: positional parse of a `y/m/d` date string;
any parse failure falls back to the current time.  `Date.UTC` maps two-digit
years into the 1900s; its normalisation of out-of-range month/day fields is
not modelled (theorems restrict to in-range dates). -/
def convertJapaneseDateToISO (now : SDate) (s : Chars) : SDate :=
  match splitDateParts s with
  | p0 :: p1 :: p2 :: _ =>
    match jsParseNat? p0, jsParseNat? p1, jsParseNat? p2 with
    | some y, some m, some d => ⟨if y ≤ 99 then y + 1900 else y, m, d⟩
    | _, _, _ => now
  | _ => now

/-- `PRData` of `file-manager.ts`: one flattened record of the structured
data store. -/
structure PRData where
  number : Nat
  title : Chars
  url : Chars
  mergedAt : SDate
  author : Chars
  authorUrl : Chars
  summary : Chars
  deriving DecidableEq

/-- The non-fatal skip conditions of the extraction loop (each logged with
`console.warn` in the source). -/
inductive WarnKind where
  | metadataMissing
  | summaryMissing
  deriving DecidableEq

/-- The per-match body of `extractPRsFromMarkdown`'s loop.  `prContent` is
the slice of the document from this match to the next one (or to the end of
the file); the match list supplies it as the difference of stored
suffixes, which agrees with the `content.substring(start, end)` of the
source. -/
def extractLoop (now : SDate) : List HeadingM → List PRData × List (Nat × WarnKind)
  | [] => ([], [])
  | m :: rest =>
    let prContent :=
      match rest with
      | m2 :: _ => m.suffix.take (m.suffix.length - m2.suffix.length)
      | [] => m.suffix
    let tail := extractLoop now rest
    match metaFirst prContent with
    | none => (tail.1, (m.num, .metadataMissing) :: tail.2)
    | some (dateS, authorS, authorUrlS) =>
      let mergedAt := convertJapaneseDateToISO now (jsTrim dateS)
      let aIdx := (idxOf? (str "**作成者**") prContent).getD 0
      match idxOfFrom? (str "\n\n") prContent aIdx with
      | none => (tail.1, (m.num, .summaryMissing) :: tail.2)
      | some sStart =>
        match idxOfFrom? (str "\n---") prContent sStart with
        | none => (tail.1, (m.num, .summaryMissing) :: tail.2)
        | some sEnd =>
          let summary := jsTrim ((prContent.drop sStart).take (sEnd - sStart))
          (⟨m.num, jsTrim m.title, m.url, mergedAt, jsTrim authorS,
            jsTrim authorUrlS, summary⟩ :: tail.1, tail.2)

/-- `extractPRsFromMarkdown`: all flattened records of one partition file,
together with the warnings for skipped malformed blocks. -/
def extractPRsFromMarkdown (now : SDate) (content : Chars) :
    List PRData × List (Nat × WarnKind) :=
  extractLoop now (headingMatches content)

/-! ## Partition Store (`file-manager.ts`) -/

/-- Attempt the dedup pattern `## \[#(\d+)\]` at the head of `s`; on success
return the parsed number and the remainder after the match. -/
def matchNumAt (s : Chars) : Option (Nat × Chars) :=
  match dropLit (str "## [#") s with
  | none => none
  | some r =>
    let ds := r.takeWhile Char.isDigit
    if ds.isEmpty then none else
    match r.drop ds.length with
    | ']' :: rest => some (digitsToNat ds, rest)
    | _ => none

/-- Fuelled `matchAll` scan for the dedup pattern. -/
def numScan : Nat → Chars → List Nat
  | 0, _ => []
  | _ + 1, [] => []
  | f + 1, c :: cs =>
    match matchNumAt (c :: cs) with
    | some (n, rest) => n :: numScan f rest
    | none => numScan f cs

/-- All identifier captures of the dedup pattern, in positional order. -/
def prNumberCaptures (content : Chars) : List Nat :=
  numScan content.length content

/-- Insertion into a JavaScript `Set` (first occurrence kept, order
preserved). -/
def insertSet (l : List Nat) (n : Nat) : List Nat :=
  if n ∈ l then l else l ++ [n]

/-- `getExistingPRNumbers`: the empty set when the monthly file does not
exist, otherwise the set of all identifiers captured by the dedup scan. -/
def getExistingPRNumbers (file : Option Chars) : List Nat :=
  match file with
  | none => []
  | some content => (prNumberCaptures content).foldl insertSet []

/-- The frontmatter pattern `^---\n([\s\S]*?)\n---\n` of `updateMonthlyFile`:
on success, the captured body and the content after the whole match.  The
lazy body is everything up to the first `\n---\n`. -/
def fmParse (content : Chars) : Option (Chars × Chars) :=
  match dropLit (str "---\n") content with
  | none => none
  | some r =>
    (idxOf? (str "\n---\n") r).map fun i =>
      (r.take i, r.drop (i + (str "\n---\n").length))

/-- The `replace(/lastUpdated: .*/, ...)` step: rewrite the first
`lastUpdated:` line (from the literal to the end of its line) to today's
ISO date, leaving everything else unchanged. -/
def replaceLastUpdated (x : Chars) (today : SDate) : Chars :=
  match idxOf? (str "lastUpdated: ") x with
  | none => x
  | some i =>
    x.take i ++ str "lastUpdated: " ++ isoDateChars today ++
    ((x.drop (i + (str "lastUpdated: ").length)).dropWhile (· ≠ '\n'))

/-- The header pattern `^\s*(# .*?\n\n> .*?\n\n)`: on success, the captured
header (without the leading whitespace) and the remainder after the whole
match. -/
def headerParse (s : Chars) : Option (Chars × Chars) :=
  let r := s.dropWhile isWsChar
  match dropLit (str "# ") r with
  | none => none
  | some r1 =>
    let l1 := r1.takeWhile (· ≠ '\n')
    match dropLit (str "\n\n> ") (r1.drop l1.length) with
    | none => none
    | some r2 =>
      let l2 := r2.takeWhile (· ≠ '\n')
      match dropLit (str "\n\n") (r2.drop l2.length) with
      | none => none
      | some rest =>
        some (str "# " ++ l1 ++ str "\n\n> " ++ l2 ++ str "\n\n", rest)

/-- The fresh-frontmatter template of the create-new-file branch. -/
def mkNewFrontmatter (today : SDate) : Chars :=
  str "---\ntitle: " ++ natChars today.y ++ str "年 " ++ natChars today.m ++
  str "月\ndescription: Ruby on Rails PR Digest - " ++ natChars today.y ++
  str "年 " ++ natChars today.m ++ str "月にマージされたPRの要約\nlastUpdated: " ++
  isoDateChars today ++ str "\n---\n\n"

/-- The fresh-header template of the create-new-file branch. -/
def mkNewHeader (today : SDate) : Chars :=
  str "# Ruby on Rails PR Digest - " ++ natChars today.y ++ str "年 " ++
  natChars today.m ++
  str "月\n\n> このページは [rails/rails](https://github.com/rails/rails) リポジトリにマージされたPull Requestを自動的に収集し、AIで要約したものです。\n\n"

/-- `entries.join("\n")`. -/
def joinNL (entries : List Chars) : Chars := List.intercalate (str "\n") entries

/-- `updateMonthlyFile`: merge rendered entry blocks into the monthly file.
`existing` is the current file content (or `none` when the file does not
exist); the result is `none` when the empty-entries short-circuit performs
no write, otherwise the full new file content
`frontmatter ++ header ++ entries.join("\n") ++ "\n" ++ existingContent`. -/
def updateMonthlyFile (today : SDate) (existing : Option Chars)
    (entries : List Chars) : Option Chars :=
  if entries.isEmpty then none
  else some (
    match existing with
    | some content =>
      match fmParse content with
      | some (fmBody, afterFm) =>
        let fm := str "---\n" ++ replaceLastUpdated fmBody today ++ str "\n---\n\n"
        match headerParse afterFm with
        | some (hdr, body) => fm ++ hdr ++ joinNL entries ++ str "\n" ++ body
        | none => fm ++ joinNL entries ++ str "\n" ++ afterFm
      | none => joinNL entries ++ str "\n" ++ content
    | none => mkNewFrontmatter today ++ mkNewHeader today ++ joinNL entries ++ str "\n")

/-! ## Index Builder (`file-manager.ts`, `generateMonthlyIndex`) -/

/-- One manifest row, as in the `MonthlyIndexEntry` interface. -/
structure MonthlyIndexEntry where
  filename : Chars
  year : Chars
  month : Nat
  title : Chars
  url : Chars
  deriving DecidableEq

/-- `filename.endsWith(".md")`. -/
def endsWithMd (f : Chars) : Bool := (str ".md").isSuffixOf f

/-- Lexicographic string comparison by character code (the default
`Array.prototype.sort` comparator on strings), as a non-strict order. -/
def lexLe : Chars → Chars → Bool
  | [], _ => true
  | _ :: _, [] => false
  | a :: as', b :: bs => if a = b then lexLe as' bs else decide (a < b)

/-- Stable insertion for `sortByLe`: an element is placed before the first
element it compares less-or-equal to, so that elements earlier in the input
precede equal elements later in the input. -/
def insertLe {α : Type} (le : α → α → Bool) (x : α) : List α → List α
  | [] => [x]
  | y :: ys => if le x y then x :: y :: ys else y :: insertLe le x ys

/-- Stable sort modelling `Array.prototype.sort` (which is specified
stable); `le` must be total. -/
def sortByLe {α : Type} (le : α → α → Bool) : List α → List α
  | [] => []
  | x :: xs => insertLe le x (sortByLe le xs)

/-- Attempt the index pattern `(\d{4})-(\d{2})\.md` at the head of `s`,
returning the year and month captures. -/
def matchYMAt (s : Chars) : Option (Chars × Chars) :=
  match s with
  | a :: b :: c :: d :: '-' :: e :: f :: rest =>
    if a.isDigit && b.isDigit && c.isDigit && d.isDigit && e.isDigit && f.isDigit then
      match dropLit (str ".md") rest with
      | some _ => some ([a, b, c, d], [e, f])
      | none => none
    else none
  | _ => none

/-- First match of the index pattern anywhere in the filename
(`filename.match(...)` with a non-global regex). -/
def ymFirst : Chars → Option (Chars × Chars)
  | [] => none
  | c :: cs =>
    match matchYMAt (c :: cs) with
    | some x => some x
    | none => ymFirst cs

/-- The per-filename body of `generateMonthlyIndex`'s map: a manifest row
when the index pattern matches, `null` otherwise.  `Number.parseInt` on the
two-digit month capture is its numeric value. -/
def mkIndexEntry (f : Chars) : Option MonthlyIndexEntry :=
  (ymFirst f).map fun ym =>
    let m := digitsToNat ym.2
    ⟨f, ym.1, m, ym.1 ++ str "年 " ++ natChars m ++ str "月", str "monthly/" ++ f⟩

/-- `generateMonthlyIndex`: `none` when the monthly directory does not
exist; otherwise the manifest rows for the `.md` files of the directory,
sorted descending by filename, with non-matching filenames filtered out. -/
def generateMonthlyIndex (dirExists : Bool) (files : List Chars) :
    Option (List MonthlyIndexEntry) :=
  if dirExists then
    some (((sortByLe lexLe (files.filter endsWithMd)).reverse).filterMap mkIndexEntry)
  else none

/-! ## Structured-data store aggregation
(`file-manager.ts`, `extractAndSavePRsFromMonthlyFiles`) -/

/-- The `PRDataStore` interface: the flattened JSON artifact. -/
structure PRDataStore where
  lastUpdated : SDate
  totalCount : Nat
  items : List PRData
  deriving DecidableEq

/-- Order embedding of in-range civil dates, standing in for
`new Date(iso).getTime()` in the sort comparator. -/
def dateKey (d : SDate) : Nat := d.y * 10000 + d.m * 100 + d.d

/-- The descending comparator `(a, b) => dateB - dateA` as a non-strict
order for the stable sort. -/
def prDescLe (a b : PRData) : Bool := dateKey b.mergedAt ≤ dateKey a.mergedAt

/-- The aggregation of `extractAndSavePRsFromMonthlyFiles` before sorting:
records of every listed `.md` file except `index.md`, in
newest-filename-first order. -/
def allMonthlyPRs (now : SDate) (files : List (Chars × Chars)) : List PRData :=
  let fs := files.filter fun f => endsWithMd f.1 && decide (f.1 ≠ str "index.md")
  let sorted := (sortByLe (fun a b => lexLe a.1 b.1) fs).reverse
  (sorted.map fun f => (extractPRsFromMarkdown now f.2).1).flatten

/-- `extractAndSavePRsFromMonthlyFiles`: aggregate all monthly files (given
as filename–content pairs), sort by merge date descending, truncate to 50,
and wrap in a `PRDataStore` with `lastUpdated = now` and `totalCount` the
retained length. -/
def extractAndSavePRsFromMonthlyFiles (now : SDate)
    (files : List (Chars × Chars)) : PRDataStore :=
  let sortedPRs := (sortByLe prDescLe (allMonthlyPRs now files)).take 50
  ⟨now, sortedPRs.length, sortedPRs⟩

/-! ## Feed Renderer (`scripts/rss-generator.ts`)

The summary-to-HTML substitution chain of `convertSummaryToHTML` is
presentation-level markup rewriting consumed by no claim and is left
unmodelled; the feed item carries the raw summary as its description, as in
the source. -/

/-- State of the backing JSON data-store file as the generator finds it. -/
inductive StoreFile where
  | absent
  | malformed
  | parsed (s : PRDataStore)

/-- The two fatal conditions of `loadPRData`. -/
inductive RssError where
  | notFound
  | parseFailed
  deriving DecidableEq

/-- `loadPRData`: throws when the file is absent or does not parse. -/
def loadPRData : StoreFile → Except RssError PRDataStore
  | .absent => .error .notFound
  | .malformed => .error .parseFailed
  | .parsed s => .ok s

/-- One feed item as built by `addPRItem`. -/
structure FeedItem where
  title : Chars
  id : Chars
  link : Chars
  description : Chars
  authorName : Chars
  authorLink : Chars
  date : SDate
  deriving DecidableEq

/-- The feed document as built by `createFeed`. -/
structure Feed where
  title : Chars
  description : Chars
  id : Chars
  link : Chars
  language : Chars
  copyright : Chars
  updated : SDate
  items : List FeedItem
  deriving DecidableEq

/-- `addPRItem`: one feed item per record; the item link is
`{baseUrl}/monthly/{yyyy-mm}#pr-{number}` with `yyyy-mm` the first seven
characters of the record's ISO merge timestamp, and the item id is the
record's canonical source URL. -/
def addPRItem (baseUrl : Chars) (pr : PRData) : FeedItem :=
  let yearMonth := (isoDateChars pr.mergedAt).take 7
  ⟨str "[#" ++ natChars pr.number ++ str "] " ++ pr.title,
   pr.url,
   baseUrl ++ str "/monthly/" ++ yearMonth ++ str "#pr-" ++ natChars pr.number,
   pr.summary,
   str "@" ++ pr.author,
   pr.authorUrl,
   pr.mergedAt⟩

/-- `createFeed`: the feed skeleton with one item per stored record. -/
def createFeed (baseUrl : Chars) (prData : PRDataStore) : Feed :=
  ⟨str "Ruby on Rails PR Digest",
   str "rails/railsリポジトリにマージされたPull RequestをAIで要約した日本語ダイジェスト",
   baseUrl, baseUrl, str "ja",
   str "Copyright © 2025 Yuhei Nakasaka",
   prData.lastUpdated,
   prData.items.map (addPRItem baseUrl)⟩

/-- `RSSGenerator.generate`: load the store (propagating its errors — the
catch block logs and rethrows), skip silently on an empty item list
(`none`: no output file written), otherwise produce the feed document. -/
def RSSGenerator.generate (baseUrl : Chars) (df : StoreFile) :
    Except RssError (Option Feed) :=
  match loadPRData df with
  | .error e => .error e
  | .ok prData =>
    if prData.items.isEmpty then .ok none
    else .ok (some (createFeed baseUrl prData))

/-- The canonical partition filename shape `{yyyy}-{mm}.md` stated by the
specification for the index builder: four digits, a dash, two digits, and
the `.md` extension, with nothing before or after.  This renders the
specification's wording; the source's unanchored filename pattern is
compared against it in the index-builder theorems. -/
def canonicalName : Chars → Bool
  | a :: b :: c :: d :: '-' :: e :: f :: rest =>
    a.isDigit && b.isDigit && c.isDigit && d.isDigit && e.isDigit && f.isDigit &&
    decide (rest = str ".md")
  | _ => false

/-! ## Generic lemmas about the string primitives -/

theorem dropLit_eq_some_iff {lit s r : Chars} :
    dropLit lit s = some r ↔ s = lit ++ r := by
  induction lit generalizing s with
  | nil => simp [dropLit]
  | cons p ps ih =>
    cases s with
    | nil => simp [dropLit]
    | cons c cs =>
      by_cases h : p = c
      · subst h
        simp [dropLit, ih]
      · simp only [dropLit, if_neg h, List.cons_append, List.cons.injEq]
        constructor
        · intro hh; cases hh
        · rintro ⟨h1, -⟩; exact absurd h1.symm h

theorem dropLit_append (lit r : Chars) : dropLit lit (lit ++ r) = some r :=
  dropLit_eq_some_iff.mpr rfl

theorem dropLit_isSome_iff {lit s : Chars} :
    (dropLit lit s).isSome = true ↔ lit <+: s := by
  constructor
  · intro h
    obtain ⟨r, hr⟩ := Option.isSome_iff_exists.mp h
    exact ⟨r, (dropLit_eq_some_iff.mp hr).symm⟩
  · rintro ⟨r, rfl⟩
    rw [dropLit_append]; rfl

theorem dropLit_eq_none_of_not_prefix {lit s : Chars} (h : ¬ lit <+: s) :
    dropLit lit s = none := by
  cases hd : dropLit lit s with
  | none => rfl
  | some r => exact absurd ⟨r, (dropLit_eq_some_iff.mp hd).symm⟩ h

theorem prefix_of_prefix_append {u v w : Chars} (h : u <+: v ++ w)
    (hl : u.length ≤ v.length) : u <+: v := by
  rw [List.prefix_iff_eq_take] at h ⊢
  rw [List.take_append_eq_append_take, Nat.sub_eq_zero_of_le hl, List.take_zero,
    List.append_nil] at h
  exact h

theorem prefix_drop_cases {needle a b : Chars} {i : Nat} (hi : i < a.length)
    (h : needle <+: (a.drop i ++ b)) :
    needle <:+: a ∨
      ∃ j, 0 < j ∧ j < needle.length ∧ needle.take j <:+ a ∧ needle.drop j <+: b := by
  have hdl : (a.drop i).length = a.length - i := List.length_drop i a
  by_cases hlen : needle.length ≤ a.length - i
  · left
    have h1 : needle <+: a.drop i := by
      apply prefix_of_prefix_append h
      omega
    exact List.infix_iff_prefix_suffix.mpr ⟨a.drop i, h1, List.drop_suffix i a⟩
  · right
    obtain ⟨t, ht⟩ := h
    refine ⟨a.length - i, by omega, by omega, ?_, ?_⟩
    · have h1 := congrArg (List.take (a.length - i)) ht
      rw [List.take_append_eq_append_take, List.take_append_eq_append_take,
        Nat.sub_eq_zero_of_le (by omega : a.length - i ≤ needle.length),
        List.take_zero, List.append_nil,
        List.take_of_length_le (by omega : (a.drop i).length ≤ a.length - i),
        hdl, Nat.sub_self, List.take_zero, List.append_nil] at h1
      rw [h1]
      exact List.drop_suffix i a
    · have h2 := congrArg (List.drop (a.length - i)) ht
      rw [List.drop_append_eq_append_drop, List.drop_append_eq_append_drop,
        Nat.sub_eq_zero_of_le (by omega : a.length - i ≤ needle.length),
        List.drop_zero,
        List.drop_eq_nil_of_le (by omega : (a.drop i).length ≤ a.length - i),
        hdl, Nat.sub_self, List.drop_zero, List.nil_append] at h2
      exact ⟨t, h2⟩

theorem infix_iff_exists_drop {n m : Chars} :
    n <:+: m ↔ ∃ i, i ≤ m.length ∧ n <+: m.drop i := by
  constructor
  · intro h
    obtain ⟨t, hp, hs⟩ := List.infix_iff_prefix_suffix.mp h
    refine ⟨m.length - t.length, by omega, ?_⟩
    rwa [← List.suffix_iff_eq_drop.mp hs]
  · rintro ⟨i, -, hp⟩
    exact List.infix_iff_prefix_suffix.mpr ⟨m.drop i, hp, List.drop_suffix i m⟩

theorem infix_append_cases {n x y : Chars} (h : n <:+: x ++ y) :
    n <:+: x ∨ n <:+: y ∨
      ∃ j, 0 < j ∧ j < n.length ∧ n.take j <:+ x ∧ n.drop j <+: y := by
  obtain ⟨i, hi, hp⟩ := infix_iff_exists_drop.mp h
  by_cases hix : i < x.length
  · rw [List.drop_append_eq_append_drop, Nat.sub_eq_zero_of_le (le_of_lt hix),
      List.drop_zero] at hp
    rcases prefix_drop_cases hix hp with h1 | ⟨j, hj1, hj2, hj3, hj4⟩
    · exact Or.inl h1
    · exact Or.inr (Or.inr ⟨j, hj1, hj2, hj3, hj4⟩)
  · right; left
    rw [List.drop_append_eq_append_drop,
      List.drop_eq_nil_of_le (by omega : x.length ≤ i), List.nil_append] at hp
    exact infix_iff_exists_drop.mpr ⟨i - x.length, by
      rw [List.length_append] at hi; omega, hp⟩

theorem not_infix_of_not_mem {n s : Chars} {c : Char} (hc : c ∈ n) (hs : c ∉ s) :
    ¬ n <:+: s :=
  fun h => hs (h.sublist.subset hc)

theorem suffix_append_cases {t x y : Chars} (h : t <:+ x ++ y) :
    t <:+ y ∨ ∃ t', t = t' ++ y ∧ t' <:+ x ∧ t' ≠ [] := by
  by_cases hl : t.length ≤ y.length
  · left
    have hd := List.suffix_iff_eq_drop.mp h
    rw [List.length_append, List.drop_append_eq_append_drop,
      List.drop_eq_nil_of_le (by omega : x.length ≤ x.length + y.length - t.length),
      List.nil_append] at hd
    rw [hd]
    exact List.drop_suffix _ y
  · right
    have hd := List.suffix_iff_eq_drop.mp h
    rw [List.length_append, List.drop_append_eq_append_drop,
      Nat.sub_eq_zero_of_le (by omega : x.length + y.length - t.length ≤ x.length),
      List.drop_zero] at hd
    refine ⟨x.drop (x.length + y.length - t.length), hd, List.drop_suffix _ x, ?_⟩
    intro hnil
    have h1 : t.length ≤ x.length + y.length := by
      have := h.length_le
      rwa [List.length_append] at this
    have h2 := congrArg List.length hnil
    rw [List.length_drop] at h2
    simp only [List.length_nil] at h2
    omega

theorem suffix_head_mem {t' : Chars} {x : Chars} (h : t' <:+ x) (hne : t' ≠ []) :
    ∀ c, t'.head? = some c → c ∈ x := by
  intro c hc
  obtain ⟨s, rfl⟩ := h
  cases t' with
  | nil => exact absurd rfl hne
  | cons b t'' =>
    simp only [List.head?_cons, Option.some.injEq] at hc
    subst hc
    exact List.mem_append_right s (List.mem_cons_self _ _)

/-- Head of the first list survives one append when nonempty. -/
theorem head?_append_of_ne_nil {x y : Chars} (h : x ≠ []) :
    (x ++ y).head? = x.head? := by
  cases x with
  | nil => exact absurd rfl h
  | cons a l => rfl

theorem idxOf?_cons_of_prefix {needle : Chars} {c : Char} {cs : Chars}
    (h : needle <+: c :: cs) : idxOf? needle (c :: cs) = some 0 := by
  rw [idxOf?, if_pos (List.isPrefixOf_iff_prefix.mpr h)]

theorem idxOf?_append_of_no_hit {needle a b : Chars}
    (h : ∀ i, i < a.length → ¬ needle <+: (a.drop i ++ b)) :
    idxOf? needle (a ++ b) = (idxOf? needle b).map (· + a.length) := by
  induction a with
  | nil => simp
  | cons c cs ih =>
    have h0 : ¬ needle.isPrefixOf ((c :: cs) ++ b) := by
      intro hp
      exact h 0 (by simp) (by simpa using List.isPrefixOf_iff_prefix.mp hp)
    rw [List.cons_append, idxOf?, if_neg (by simpa using h0)]
    rw [ih (fun i hi hp => h (i + 1) (by simp only [List.length_cons]; omega)
      (by simpa using hp))]
    cases idxOf? needle b with
    | none => rfl
    | some k =>
      show some (k + cs.length + 1) = some (k + (c :: cs).length)
      congr 1

/-! ## takeWhile and digit-run helpers -/

theorem takeWhile_append_all {p : Char → Bool} {xs : Chars} {y : Char} {r : Chars}
    (hxs : ∀ c ∈ xs, p c = true) (hy : p y = false) :
    (xs ++ y :: r).takeWhile p = xs := by
  induction xs with
  | nil => simp [List.takeWhile_cons, hy]
  | cons c cs ih =>
    rw [List.cons_append, List.takeWhile_cons, hxs c (List.mem_cons_self c cs),
      ih (fun d hd => hxs d (List.mem_cons_of_mem c hd))]
    simp

theorem drop_append_le {x y : Chars} {n : Nat} (h : n ≤ x.length) :
    (x ++ y).drop n = x.drop n ++ y := by
  rw [List.drop_append_eq_append_drop, Nat.sub_eq_zero_of_le h, List.drop_zero]

theorem takeWhile_append_stop {p : Char → Bool} (x : Chars) {y : Char} (r : Chars)
    (hy : p y = false) :
    (x ++ y :: r).takeWhile p = x.takeWhile p := by
  induction x with
  | nil => simp [List.takeWhile, hy]
  | cons c cs ih =>
    rw [List.cons_append, List.takeWhile_cons, List.takeWhile_cons]
    cases p c
    · rfl
    · rw [ih]

theorem drop_takeWhile_length {p : Char → Bool} (s : Chars) :
    s.drop (s.takeWhile p).length = s.dropWhile p := by
  induction s with
  | nil => rfl
  | cons c cs ih =>
    cases hp : p c
    · simp [List.takeWhile_cons, List.dropWhile_cons, hp]
    · simp [List.takeWhile_cons, List.dropWhile_cons, hp, ih]

theorem natCharsAux_congr :
    ∀ n f g, n < f → n < g → natCharsAux f n = natCharsAux g n := by
  intro n
  induction n using Nat.strong_induction_on with
  | _ n ih =>
    intro f g hf hg
    match f, g with
    | f' + 1, g' + 1 =>
      by_cases h : n < 10
      · simp [natCharsAux, h]
      · have hdiv : n / 10 < n := Nat.div_lt_self (by omega) (by omega)
        rw [natCharsAux, natCharsAux, if_neg h, if_neg h,
          ih (n / 10) hdiv f' g' (by omega) (by omega)]

theorem natCharsAux_eq {f n : Nat} (h : n < f) : natCharsAux f n = natChars n :=
  natCharsAux_congr n f (n + 1) h (Nat.lt_succ_self n)

theorem digitChar_spec {k : Nat} (h : k < 10) :
    (digitChar k).isDigit = true ∧ (digitChar k).toNat = 48 + k := by
  interval_cases k <;> exact ⟨rfl, rfl⟩

theorem mem_natChars_isDigit {n : Nat} {c : Char} (h : c ∈ natChars n) :
    c.isDigit = true := by
  rw [natChars] at h
  generalize hf : n + 1 = f at h
  clear hf
  induction f generalizing n with
  | zero => simp [natCharsAux] at h
  | succ f' ih =>
    rw [natCharsAux] at h
    by_cases h10 : n < 10
    · rw [if_pos h10] at h
      simp only [List.mem_singleton] at h
      subst h
      exact (digitChar_spec h10).1
    · rw [if_neg h10] at h
      rcases List.mem_append.mp h with h1 | h1
      · exact ih h1
      · simp only [List.mem_singleton] at h1
        subst h1
        exact (digitChar_spec (Nat.mod_lt n (by omega))).1

theorem not_mem_natChars {n : Nat} {c : Char} (h : c.isDigit = false) :
    c ∉ natChars n := fun hm => by rw [mem_natChars_isDigit hm] at h; cases h

theorem natChars_ne_nil (n : Nat) : natChars n ≠ [] := by
  rw [natChars, natCharsAux]
  by_cases h : n < 10
  · simp [h]
  · simp [h]

theorem digitsToNat_append_single (xs : Chars) (c : Char) :
    digitsToNat (xs ++ [c]) = 10 * digitsToNat xs + (c.toNat - 48) := by
  rw [digitsToNat, digitsToNat, List.foldl_append]
  simp [Nat.mul_comm]

theorem digitsToNat_natChars (n : Nat) : digitsToNat (natChars n) = n := by
  induction n using Nat.strong_induction_on with
  | _ n ih =>
    rw [natChars, natCharsAux]
    by_cases h : n < 10
    · rw [if_pos h]
      show digitsToNat [digitChar n] = n
      rw [show [digitChar n] = [] ++ [digitChar n] from rfl, digitsToNat_append_single]
      rw [(digitChar_spec h).2]
      simp [digitsToNat]
    · have hdiv : n / 10 < n := Nat.div_lt_self (by omega) (by omega)
      rw [if_neg h, natCharsAux_eq (by omega : n / 10 < n), digitsToNat_append_single,
        ih (n / 10) hdiv, (digitChar_spec (Nat.mod_lt n (by omega))).2]
      omega

/-! ## jsTrim helpers -/

theorem dropWhile_eq_self_of_all {p : Char → Bool} {s : Chars}
    (h : ∀ c ∈ s, p c = false) : s.dropWhile p = s := by
  cases s with
  | nil => rfl
  | cons c cs => simp [List.dropWhile_cons, h c (List.mem_cons_self c cs)]

theorem jsTrim_of_no_ws {s : Chars} (h : ∀ c ∈ s, isWsChar c = false) :
    jsTrim s = s := by
  rw [jsTrim, dropWhile_eq_self_of_all h,
    dropWhile_eq_self_of_all (fun c hc => h c (List.mem_reverse.mp hc)),
    List.reverse_reverse]

theorem jsTrim_stable_head {s : Chars} (h : jsTrim s = s) (hne : s ≠ []) :
    isWsChar (s.head hne) = false := by
  cases s with
  | nil => exact absurd rfl hne
  | cons c cs =>
    simp only [List.head_cons]
    by_contra hw
    rw [Bool.not_eq_false] at hw
    have h2 : ((c :: cs).dropWhile isWsChar).length ≤ cs.length := by
      simp only [List.dropWhile_cons, hw, if_true]
      exact (List.dropWhile_sublist _).length_le
    have hlen : (jsTrim (c :: cs)).length < (c :: cs).length := by
      calc (jsTrim (c :: cs)).length
          ≤ ((c :: cs).dropWhile isWsChar).length := by
            rw [jsTrim, List.length_reverse]
            have h3 := (List.dropWhile_sublist (l :=
              ((c :: cs).dropWhile isWsChar).reverse) isWsChar).length_le
            rwa [List.length_reverse] at h3
        _ ≤ cs.length := h2
        _ < (c :: cs).length := by simp
    rw [h] at hlen
    omega

theorem dropWhile_head?_not {p : Char → Bool} {l : Chars} {c : Char}
    (h : (l.dropWhile p).head? = some c) : p c = false := by
  induction l with
  | nil => simp [List.dropWhile] at h
  | cons a as ih =>
    rw [List.dropWhile_cons] at h
    by_cases hp : p a = true
    · rw [if_pos hp] at h
      exact ih h
    · rw [if_neg hp] at h
      simp only [List.head?_cons, Option.some.injEq] at h
      subst h
      simpa using hp

theorem dropWhile_eq_self_of_head? {p : Char → Bool} {l : Chars} {c : Char}
    (hc : l.head? = some c) (h : p c = false) : l.dropWhile p = l := by
  cases l with
  | nil => rfl
  | cons a cs =>
    simp only [List.head?_cons, Option.some.injEq] at hc
    subst hc
    simp [List.dropWhile_cons, h]

theorem jsTrim_stable_head? {s : Chars} (h : jsTrim s = s) {c : Char}
    (hc : s.head? = some c) : isWsChar c = false := by
  cases s with
  | nil => simp at hc
  | cons a cs =>
    simp only [List.head?_cons, Option.some.injEq] at hc
    subst hc
    by_contra hw
    rw [Bool.not_eq_false] at hw
    have h2 : ((a :: cs).dropWhile isWsChar).length ≤ cs.length := by
      simp only [List.dropWhile_cons, hw, if_true]
      exact (List.dropWhile_sublist _).length_le
    have hlen : (jsTrim (a :: cs)).length < (a :: cs).length := by
      calc (jsTrim (a :: cs)).length
          ≤ ((a :: cs).dropWhile isWsChar).length := by
            rw [jsTrim, List.length_reverse]
            have h3 := (List.dropWhile_sublist (l :=
              ((a :: cs).dropWhile isWsChar).reverse) isWsChar).length_le
            rwa [List.length_reverse] at h3
        _ ≤ cs.length := h2
        _ < (a :: cs).length := by simp
    rw [h] at hlen
    omega

theorem jsTrim_stable_revhead? {s : Chars} (h : jsTrim s = s) {c : Char}
    (hc : s.reverse.head? = some c) : isWsChar c = false := by
  have h1 : s.reverse = (s.dropWhile isWsChar).reverse.dropWhile isWsChar := by
    conv_lhs => rw [← h]
    rw [jsTrim, List.reverse_reverse]
  rw [h1] at hc
  exact dropWhile_head?_not hc

theorem jsTrim_pad {s : Chars} (h : jsTrim s = s) :
    jsTrim ('\n' :: '\n' :: (s ++ ['\n'])) = s := by
  cases hs : s with
  | nil => subst hs; decide
  | cons a cs =>
    subst hs
    have hh : isWsChar a = false := jsTrim_stable_head? h rfl
    have e1 : ('\n' :: '\n' :: ((a :: cs) ++ ['\n'])).dropWhile isWsChar =
        (a :: cs) ++ ['\n'] := by
      rw [List.dropWhile_cons, if_pos (show isWsChar '\n' = true from rfl),
        List.dropWhile_cons, if_pos (show isWsChar '\n' = true from rfl),
        List.cons_append, List.dropWhile_cons, if_neg (by simp [hh])]
    rw [jsTrim, e1, List.reverse_append]
    obtain ⟨c0, hc0⟩ : ∃ c0, (a :: cs).reverse.head? = some c0 := by
      cases hrev : (a :: cs).reverse with
      | nil =>
        have := congrArg List.length hrev
        simp at this
      | cons d t => exact ⟨d, rfl⟩
    have e2 : ('\n' :: (a :: cs).reverse).dropWhile isWsChar = (a :: cs).reverse := by
      rw [List.dropWhile_cons]
      simp only [show isWsChar '\n' = true from rfl, if_true]
      exact dropWhile_eq_self_of_head? hc0 (jsTrim_stable_revhead? h hc0)
    rw [List.reverse_singleton, List.singleton_append, e2, List.reverse_reverse]

theorem takeWhile_eq_self_of_all {p : Char → Bool} {s : Chars}
    (h : ∀ c ∈ s, p c = true) : s.takeWhile p = s := by
  induction s with
  | nil => rfl
  | cons c cs ih =>
    rw [List.takeWhile_cons, h c (List.mem_cons_self c cs)]
    simp only [if_true]
    rw [ih (fun d hd => h d (List.mem_cons_of_mem c hd))]

theorem mem_natChars_exists {n : Nat} {c : Char} (h : c ∈ natChars n) :
    ∃ k, k < 10 ∧ c = digitChar k := by
  rw [natChars] at h
  generalize n + 1 = f at h
  induction f generalizing n with
  | zero => simp [natCharsAux] at h
  | succ f ih =>
    rw [natCharsAux] at h
    by_cases h10 : n < 10
    · rw [if_pos h10] at h
      simp only [List.mem_singleton] at h
      exact ⟨n, h10, h⟩
    · rw [if_neg h10] at h
      rcases List.mem_append.mp h with h1 | h1
      · exact ih h1
      · simp only [List.mem_singleton] at h1
        exact ⟨n % 10, Nat.mod_lt n (by omega), h1⟩

theorem natChars_prop (P : Char → Prop) (hP : ∀ k, k < 10 → P (digitChar k))
    {n : Nat} {c : Char} (h : c ∈ natChars n) : P c := by
  obtain ⟨k, hk, rfl⟩ := mem_natChars_exists h
  exact hP k hk

theorem splitDateParts_ne_nil (s : Chars) : splitDateParts s ≠ [] := by
  induction s with
  | nil => simp [splitDateParts]
  | cons c cs ih =>
    rw [splitDateParts]
    by_cases hc : (c = '/' || c = ':' || isWsChar c) = true
    · simp [hc]
    · rw [if_neg (by simpa using hc)]
      cases splitDateParts cs
      · simp
      · simp

theorem splitDateParts_all_nondelim {x : Chars}
    (hx : ∀ c ∈ x, (c = '/' || c = ':' || isWsChar c) = false) :
    splitDateParts x = [x] := by
  induction x with
  | nil => rfl
  | cons c cs ih =>
    rw [splitDateParts, if_neg (by simpa using hx c (List.mem_cons_self c cs)),
      ih (fun d hd => hx d (List.mem_cons_of_mem c hd))]

theorem splitDateParts_append_slash {x : Chars} (r : Chars)
    (hx : ∀ c ∈ x, (c = '/' || c = ':' || isWsChar c) = false) :
    splitDateParts (x ++ '/' :: r) = x :: splitDateParts r := by
  induction x with
  | nil => simp [splitDateParts]
  | cons c cs ih =>
    rw [List.cons_append, splitDateParts,
      if_neg (by simpa using hx c (List.mem_cons_self c cs)),
      ih (fun d hd => hx d (List.mem_cons_of_mem c hd))]

theorem natChars_nondelim {n : Nat} :
    ∀ c ∈ natChars n, (c = '/' || c = ':' || isWsChar c) = false := fun _ hc =>
  natChars_prop (fun c => (c = '/' || c = ':' || isWsChar c) = false)
    (fun k hk => by interval_cases k <;> decide) hc

theorem natChars_no_ws {n : Nat} : ∀ c ∈ natChars n, isWsChar c = false := fun _ hc =>
  natChars_prop (fun c => isWsChar c = false)
    (fun k hk => by interval_cases k <;> decide) hc

theorem jsParseNat?_natChars (k : Nat) : jsParseNat? (natChars k) = some k := by
  rw [jsParseNat?]
  have h1 : (natChars k).dropWhile isWsChar = natChars k :=
    dropWhile_eq_self_of_all natChars_no_ws
  have h2 : (natChars k).takeWhile Char.isDigit = natChars k :=
    takeWhile_eq_self_of_all (fun c hc => mem_natChars_isDigit hc)
  simp only [h1, h2]
  rw [if_neg (by simpa [List.isEmpty_iff] using natChars_ne_nil k)]
  rw [digitsToNat_natChars]

theorem convert_jpDate (now : SDate) (dt : SDate) (hy : 100 ≤ dt.y) :
    convertJapaneseDateToISO now (jpDateChars dt) = dt := by
  rw [convertJapaneseDateToISO, jpDateChars,
    splitDateParts_append_slash _ natChars_nondelim,
    splitDateParts_append_slash _ natChars_nondelim,
    splitDateParts_all_nondelim natChars_nondelim]
  simp only [jsParseNat?_natChars]
  rw [if_neg (by omega)]

theorem jpDateChars_no_ws (dt : SDate) :
    ∀ c ∈ jpDateChars dt, isWsChar c = false := by
  intro c hc
  rw [jpDateChars] at hc
  rcases List.mem_append.mp hc with h1 | h1
  · exact natChars_no_ws c h1
  · rcases List.mem_cons.mp h1 with h2 | h2
    · subst h2; decide
    · rcases List.mem_append.mp h2 with h3 | h3
      · exact natChars_no_ws c h3
      · rcases List.mem_cons.mp h3 with h4 | h4
        · subst h4; decide
        · exact natChars_no_ws c h4

theorem jsTrim_jpDate (dt : SDate) : jsTrim (jpDateChars dt) = jpDateChars dt :=
  jsTrim_of_no_ws (jpDateChars_no_ws dt)

/-! ## Heading-pattern matcher lemmas -/

theorem dropLit_cons_ne {p : Char} {ps : Chars} {c : Char} {cs : Chars} (h : p ≠ c) :
    dropLit (p :: ps) (c :: cs) = none := by
  rw [dropLit, if_neg h]

theorem matchHeadingAt_nil : matchHeadingAt [] = none := rfl

theorem matchHeadingAt_none_of_head {c : Char} {cs : Chars} (h : c ≠ '#') :
    matchHeadingAt (c :: cs) = none := by
  rw [matchHeadingAt, show str "## [#" = '#' :: str "# [#" from rfl,
    dropLit_cons_ne (fun hh => h hh.symm)]

theorem headScan_cons_none {f : Nat} {c : Char} {cs : Chars}
    (h : matchHeadingAt (c :: cs) = none) :
    headScan (f + 1) (c :: cs) = headScan f cs := by
  rw [headScan, h]

theorem headScan_cons_some {f : Nat} {c : Char} {cs : Chars} {n : Nat}
    {u t rest : Chars} (h : matchHeadingAt (c :: cs) = some (n, u, t, rest)) :
    headScan (f + 1) (c :: cs) = ⟨n, u, t, c :: cs⟩ :: headScan f rest := by
  rw [headScan, h]

theorem headScan_some {f : Nat} (hf : 0 < f) {s : Chars} {n : Nat}
    {u t rest : Chars} (h : matchHeadingAt s = some (n, u, t, rest)) :
    headScan f s = ⟨n, u, t, s⟩ :: headScan (f - 1) rest := by
  cases s with
  | nil => rw [matchHeadingAt_nil] at h; cases h
  | cons c cs =>
    match f, hf with
    | f' + 1, _ =>
      rw [headScan_cons_some h]
      rfl

theorem headScan_none_step {f : Nat} (hf : 0 < f) {c : Char} {cs : Chars}
    (h : matchHeadingAt (c :: cs) = none) :
    headScan f (c :: cs) = headScan (f - 1) cs := by
  match f, hf with
  | f' + 1, _ =>
    rw [headScan_cons_none h]
    rfl

theorem headScan_eq_nil_of_headFree {f : Nat} {s : Chars} (h : HeadFree s) :
    headScan f s = [] := by
  induction f generalizing s with
  | zero => rfl
  | succ f ih =>
    cases s with
    | nil => rfl
    | cons c cs =>
      rw [headScan_cons_none (h _ (List.suffix_refl _) (by simp))]
      exact ih (fun t ht hne => h t (ht.trans (List.suffix_cons c cs)) hne)

theorem headFree_of_headScan_nil : ∀ {s : Chars}, headScan s.length s = [] → HeadFree s := by
  intro s
  induction s with
  | nil =>
    intro _ t ht hne
    rw [List.suffix_nil.mp ht] at hne
    exact absurd rfl hne
  | cons c cs ih =>
    intro h t ht hne
    rw [List.length_cons] at h
    cases hm : matchHeadingAt (c :: cs) with
    | some v =>
      obtain ⟨n, u, tt, rest⟩ := v
      rw [headScan_cons_some hm] at h
      cases h
    | none =>
      rw [headScan_cons_none hm] at h
      rcases List.suffix_cons_iff.mp ht with h1 | h1
      · rw [h1]; exact hm
      · exact ih h t h1 hne

/-- A literal with no newline either is consumed entirely inside `x`
(uniformly in the continuation), or fails whenever the continuation after
`x` starts with a newline. -/
theorem dropLit_split (lit : Chars) (x : Chars) (h : '\n' ∉ lit) :
    (∃ x', x = lit ++ x' ∧ ∀ r, dropLit lit (x ++ r) = some (x' ++ r)) ∨
    (∀ r, dropLit lit (x ++ '\n' :: r) = none) := by
  induction lit generalizing x with
  | nil => exact Or.inl ⟨x, rfl, fun r => rfl⟩
  | cons p ps ih =>
    cases x with
    | nil =>
      right
      intro r
      rw [List.nil_append]
      exact dropLit_cons_ne (fun hp => h (by rw [hp]; exact List.mem_cons_self _ _))
    | cons c cs =>
      by_cases hpc : p = c
      · subst hpc
        rcases ih cs (fun hm => h (List.mem_cons_of_mem _ hm)) with
          ⟨x', hx', hall⟩ | hfail
        · left
          refine ⟨x', by rw [hx']; rfl, fun r => ?_⟩
          rw [List.cons_append, dropLit, if_pos rfl, hall]
        · right
          intro r
          rw [List.cons_append, dropLit, if_pos rfl]
          exact hfail r
      · right
        intro r
        rw [List.cons_append]
        exact dropLit_cons_ne hpc

/-- The heading matcher looks only at the current line: with the same `x`
before the newline, failure is independent of what follows the newline. -/
theorem matchHeadingAt_nl_indep (x r : Chars) :
    matchHeadingAt (x ++ '\n' :: r) = none ↔ matchHeadingAt (x ++ ['\n']) = none := by
  rw [matchHeadingAt, matchHeadingAt]
  rcases dropLit_split (str "## [#") x (by decide) with ⟨x1, hx1, hall⟩ | hfail
  · rw [hall ('\n' :: r), hall ['\n']]
    simp only
    rw [takeWhile_append_stop x1 r (by decide : Char.isDigit '\n' = false),
      takeWhile_append_stop x1 [] (by decide : Char.isDigit '\n' = false)]
    by_cases hds : (x1.takeWhile Char.isDigit).isEmpty = true
    · rw [if_pos hds, if_pos hds]
    · rw [if_neg hds, if_neg hds,
        drop_append_le ((List.takeWhile_sublist _).length_le),
        drop_append_le ((List.takeWhile_sublist _).length_le)]
      set x2 := x1.drop (x1.takeWhile Char.isDigit).length with hx2
      rcases dropLit_split (str "](") x2 (by decide) with ⟨x3, hx3, hall3⟩ | hfail3
      · rw [hall3 ('\n' :: r), hall3 ['\n']]
        simp only
        rcases dropLit_split railsPullLit x3 (by decide) with
          ⟨x4, hx4, hall4⟩ | hfail4
        · rw [hall4 ('\n' :: r), hall4 ['\n']]
          simp only
          rw [takeWhile_append_stop x4 r (by decide : Char.isDigit '\n' = false),
            takeWhile_append_stop x4 [] (by decide : Char.isDigit '\n' = false)]
          by_cases hds2 : (x4.takeWhile Char.isDigit).isEmpty = true
          · rw [if_pos hds2, if_pos hds2]
          · rw [if_neg hds2, if_neg hds2,
              drop_append_le ((List.takeWhile_sublist _).length_le),
              drop_append_le ((List.takeWhile_sublist _).length_le)]
            set x5 := x4.drop (x4.takeWhile Char.isDigit).length with hx5
            rcases dropLit_split (str ") ") x5 (by decide) with
              ⟨x6, hx6, hall6⟩ | hfail6
            · rw [hall6 ('\n' :: r), hall6 ['\n']]
              simp only
              rw [takeWhile_append_stop (p := fun x => decide (x ≠ '\n')) x6 r
                  (by decide),
                takeWhile_append_stop (p := fun x => decide (x ≠ '\n')) x6 []
                  (by decide)]
              by_cases hts : (x6.takeWhile (· ≠ '\n')).isEmpty = true
              · rw [if_pos hts, if_pos hts]
              · rw [if_neg hts, if_neg hts]
                simp
            · rw [hfail6 r, hfail6 []]
        · rw [hfail4 r, hfail4 []]
      · rw [hfail3 r, hfail3 []]
  · rw [hfail r, hfail []]


/-! ## Occurrence-position helpers -/

theorem getLast?_of_suffix {t x : Chars} (h : t <:+ x) (hne : t ≠ []) :
    x.getLast? = t.getLast? := by
  obtain ⟨s, rfl⟩ := h
  rw [List.getLast?_append]
  cases ht : t.getLast? with
  | none => exact absurd (List.getLast?_eq_none_iff.mp ht) hne
  | some c => rfl

theorem mem_of_getLast? {t : Chars} {c : Char} (h : t.getLast? = some c) : c ∈ t := by
  induction t with
  | nil => cases h
  | cons a as ih =>
    cases has : as with
    | nil =>
      rw [has] at h
      simp only [List.getLast?_singleton, Option.some.injEq] at h
      simp [h]
    | cons b bs =>
      subst has
      rw [List.getLast?_cons_cons] at h
      exact List.mem_cons_of_mem a (ih h)

theorem take_getLast? {n : Chars} {j : Nat} (h1 : 0 < j) (h2 : j ≤ n.length) :
    ∃ c, (n.take j).getLast? = some c ∧ c ∈ n := by
  have hne : n.take j ≠ [] := by
    intro hnil
    have := congrArg List.length hnil
    rw [List.length_take] at this
    simp only [List.length_nil] at this
    omega
  cases hl : (n.take j).getLast? with
  | none => exact absurd (List.getLast?_eq_none_iff.mp hl) hne
  | some c =>
    exact ⟨c, rfl, (List.take_sublist j n).subset (mem_of_getLast? hl)⟩

/-- All boundary spans die when the left region's last character cannot
occur in the needle. -/
theorem spans_die_of_getLast {n a b : Chars}
    (h : ∀ c, a.getLast? = some c → c ∉ n) :
    ∀ j, 0 < j → j < n.length → ¬ (n.take j <:+ a ∧ n.drop j <+: b) := by
  rintro j hj1 hj2 ⟨hs, -⟩
  obtain ⟨d, hd, hdm⟩ := take_getLast? hj1 (le_of_lt hj2)
  have hne : n.take j ≠ [] := by
    intro hnil
    rw [hnil] at hd
    cases hd
  have h2 := getLast?_of_suffix hs hne
  rw [hd] at h2
  exact h d h2 hdm

theorem head?_of_prefix {u v : Chars} (h : u <+: v) (hne : u ≠ []) :
    v.head? = u.head? := by
  obtain ⟨t, rfl⟩ := h
  cases u with
  | nil => exact absurd rfl hne
  | cons c cs => rfl

/-- A boundary span dies when the right region's head character cannot
occur in the needle. -/
theorem spans_die_of_head {n a b : Chars}
    (h : ∀ c, b.head? = some c → c ∉ n) :
    ∀ j, 0 < j → j < n.length → ¬ (n.take j <:+ a ∧ n.drop j <+: b) := by
  rintro j hj1 hj2 ⟨-, hp⟩
  have hlen : n.drop j ≠ [] := by
    intro hnil
    have := congrArg List.length hnil
    rw [List.length_drop] at this
    simp only [List.length_nil] at this
    omega
  have h2 := head?_of_prefix hp hlen
  cases hh : (n.drop j).head? with
  | none => exact absurd (List.head?_eq_none_iff.mp hh) hlen
  | some d =>
    rw [hh] at h2
    exact h d h2 ((List.drop_sublist j n).subset (List.mem_of_mem_head? hh))

theorem not_mem_of_all_digits {x : Chars} {c : Char}
    (hx : ∀ d ∈ x, d.isDigit = true) (hc : c.isDigit = false) : c ∉ x :=
  fun hm => by rw [hx c hm] at hc; cases hc

theorem not_prefix_append_of {lit t' b : Chars} (hne : t' ≠ [])
    (hinf : ¬ lit <:+: t')
    (hspan : ∀ j, 0 < j → j < lit.length → ¬ (lit.take j <:+ t' ∧ lit.drop j <+: b)) :
    ¬ lit <+: t' ++ b := by
  intro h
  have h0 : (0 : Nat) < t'.length := List.length_pos.mpr hne
  have h1 : lit <+: (t'.drop 0 ++ b) := by simpa using h
  rcases prefix_drop_cases h0 h1 with h2 | ⟨j, hj1, hj2, hj3, hj4⟩
  · exact hinf h2
  · exact hspan j hj1 hj2 ⟨hj3, hj4⟩

theorem not_infix_append_chain {n x y : Chars} (hx : ¬ n <:+: x) (hy : ¬ n <:+: y)
    (hspan : ∀ j, 0 < j → j < n.length → ¬ (n.take j <:+ x ∧ n.drop j <+: y)) :
    ¬ n <:+: x ++ y := by
  intro h
  rcases infix_append_cases h with h1 | h1 | ⟨j, hj1, hj2, hj3, hj4⟩
  · exact hx h1
  · exact hy h1
  · exact hspan j hj1 hj2 ⟨hj3, hj4⟩

theorem not_infix_of_suffix {n t a : Chars} (h : t <:+ a) (hn : ¬ n <:+: a) :
    ¬ n <:+: t := fun hi => hn (hi.trans h.isInfix)

/-! ## Metadata-pattern lemmas -/

theorem metaAt_none_of_not_lit {s : Chars} (h : ¬ str "**マージ日**: " <+: s) :
    metaAt s = none := by
  rw [metaAt, dropLit_eq_none_of_not_prefix h]

theorem metaFirst_append {a b : Chars}
    (h : ∀ t', t' <:+ a → t' ≠ [] → metaAt (t' ++ b) = none) :
    metaFirst (a ++ b) = metaFirst b := by
  induction a with
  | nil => rfl
  | cons c cs ih =>
    have h0 : metaAt (c :: (cs ++ b)) = none := by
      have h1 := h (c :: cs) (List.suffix_refl _) (by simp)
      simpa using h1
    rw [List.cons_append, metaFirst, h0]
    exact ih fun t' ht' hne' => h t' (ht'.trans (List.suffix_cons c cs)) hne'

theorem metaFirst_cons_some {c : Char} {cs : Chars} {v : Chars × Chars × Chars}
    (h : metaAt (c :: cs) = some v) : metaFirst (c :: cs) = some v := by
  rw [metaFirst, h]

theorem firstSome_cons_some {α β : Type} {f : α → Option β} {a : α} {as : List α}
    {b : β} (h : f a = some b) : firstSome f (a :: as) = some b := by
  rw [firstSome, h]

/-- The first candidate of a lazy group whose capture is `x`: `x` is
nonempty and newline-free, and no stop occurrence begins strictly inside
`x`. -/
theorem lazyCands_first {stop x r : Chars} (hne : x ≠ []) (hnl : '\n' ∉ x)
    (hno : ∀ i, 0 < i → i < x.length → ¬ stop <+: (x.drop i ++ (stop ++ r))) :
    ∃ junk, lazyCands stop (x ++ (stop ++ r)) = (x, r) :: junk := by
  induction x with
  | nil => exact absurd rfl hne
  | cons c cs ih =>
    have hcn : ¬ c = '\n' := fun hc => hnl (by rw [hc]; exact List.mem_cons_self _ _)
    cases hcs : cs with
    | nil =>
      subst hcs
      have e : lazyCands stop ([c] ++ (stop ++ r)) =
          ([c], r) :: (lazyCands stop (stop ++ r)).map (fun p => (c :: p.1, p.2)) := by
        rw [List.singleton_append, lazyCands, if_neg hcn, dropLit_append]
        rfl
      exact ⟨(lazyCands stop (stop ++ r)).map (fun p => (c :: p.1, p.2)), e⟩
    | cons d ds =>
      rw [← hcs]
      have hcs_ne : cs ≠ [] := by rw [hcs]; simp
      have hfirst : dropLit stop (cs ++ (stop ++ r)) = none := by
        apply dropLit_eq_none_of_not_prefix
        have h1 := hno 1 (by omega) (by simp only [List.length_cons]; rw [hcs]; simp)
        simpa using h1
      obtain ⟨junk, hjunk⟩ := ih hcs_ne (fun hm => hnl (List.mem_cons_of_mem c hm))
        (fun i hi1 hi2 hp => hno (i + 1) (by omega)
          (by simp only [List.length_cons]; omega) (by simpa using hp))
      have e : lazyCands stop ((c :: cs) ++ (stop ++ r)) =
          (lazyCands stop (cs ++ (stop ++ r))).map (fun p => (c :: p.1, p.2)) := by
        rw [List.cons_append, lazyCands, if_neg hcn, hfirst]
        rfl
      rw [e, hjunk]
      refine ⟨junk.map (fun p => (c :: p.1, p.2)), ?_⟩
      rw [List.map_cons]


/-! ## Matcher success computations and HeadFree composition -/

theorem matchHeadingAt_spec (n k : Nat) (title rest : Chars)
    (ht : title ≠ []) (htn : '\n' ∉ title) :
    matchHeadingAt (str "## [#" ++ (natChars n ++ (']' :: '(' ::
      (railsPullLit ++ (natChars k ++ (')' :: ' ' :: (title ++ '\n' :: rest))))))) =
    some (n, railsPullLit ++ natChars k, title, '\n' :: rest) := by
  rw [matchHeadingAt, dropLit_append]
  simp only
  rw [takeWhile_append_all (fun c hc => mem_natChars_isDigit hc)
    (by decide : Char.isDigit ']' = false)]
  rw [if_neg (by simpa [List.isEmpty_iff] using natChars_ne_nil n), List.drop_left]
  rw [show (']' :: '(' ::
      (railsPullLit ++ (natChars k ++ (')' :: ' ' :: (title ++ '\n' :: rest)))))
      = str "](" ++ (railsPullLit ++ (natChars k ++ (')' :: ' ' ::
        (title ++ '\n' :: rest)))) from rfl, dropLit_append]
  simp only
  rw [dropLit_append]
  simp only
  rw [takeWhile_append_all (fun c hc => mem_natChars_isDigit hc)
    (by decide : Char.isDigit ')' = false)]
  rw [if_neg (by simpa [List.isEmpty_iff] using natChars_ne_nil k), List.drop_left]
  rw [show (')' :: ' ' :: (title ++ '\n' :: rest))
      = str ") " ++ (title ++ '\n' :: rest) from rfl, dropLit_append]
  simp only
  rw [takeWhile_append_all (p := fun x => decide (x ≠ '\n'))
    (fun c hc => decide_eq_true (fun hh => htn (hh ▸ hc))) (by decide)]
  rw [if_neg (by simpa [List.isEmpty_iff] using ht), List.drop_left,
    digitsToNat_natChars]

theorem metaFirst_of_metaAt {s : Chars} {v : Chars × Chars × Chars}
    (hne : s ≠ []) (h : metaAt s = some v) : metaFirst s = some v := by
  cases s with
  | nil => exact absurd rfl hne
  | cons c cs => rw [metaFirst, h]

theorem idxOf?_of_prefix {needle s : Chars} (hne : needle ≠ []) (h : needle <+: s) :
    idxOf? needle s = some 0 := by
  cases s with
  | nil =>
    obtain ⟨t, ht⟩ := h
    cases needle with
    | nil => exact absurd rfl hne
    | cons a as => cases ht
  | cons c cs => exact idxOf?_cons_of_prefix h

theorem metaAt_spec (jd login uurl rest : Chars)
    (h1 : jd ≠ []) (h2 : '\n' ∉ jd)
    (h3 : ∀ i, 0 < i → i < jd.length → ¬ str " | **作成者**: [@" <+:
      (jd.drop i ++ (str " | **作成者**: [@" ++ (login ++ (str "](" ++
        (uurl ++ (')' :: rest)))))))
    (h4 : login ≠ []) (h5 : '\n' ∉ login)
    (h6 : ∀ i, 0 < i → i < login.length → ¬ str "](" <+:
      (login.drop i ++ (str "](" ++ (uurl ++ (')' :: rest)))))
    (h7 : uurl ≠ []) (h8 : '\n' ∉ uurl) (h9 : ')' ∉ uurl) :
    metaAt (str "**マージ日**: " ++ (jd ++ (str " | **作成者**: [@" ++ (login ++
      (str "](" ++ (uurl ++ (')' :: rest))))))) = some (jd, login, uurl) := by
  rw [metaAt, dropLit_append]
  simp only
  rw [metaDateGroup]
  obtain ⟨j1, hj1⟩ := lazyCands_first h1 h2 h3
  rw [hj1]
  apply firstSome_cons_some
  simp only
  rw [metaAuthorGroup]
  obtain ⟨j2, hj2⟩ := lazyCands_first h4 h5 h6
  rw [hj2]
  have hurl : metaUrlGroup (uurl ++ ')' :: rest) = some uurl := by
    rw [metaUrlGroup]
    have h9' : ∀ i, 0 < i → i < uurl.length → ¬ str ")" <+:
        (uurl.drop i ++ (str ")" ++ rest)) := by
      intro i hi0 hi hp
      have hlen : uurl.drop i ≠ [] := by
        intro hnil
        have hl2 := congrArg List.length hnil
        rw [List.length_drop] at hl2
        simp only [List.length_nil] at hl2
        omega
      have hh := head?_of_prefix hp (by decide)
      rw [head?_append_of_ne_nil hlen] at hh
      have hh2 : (uurl.drop i).head? = some ')' := hh
      exact h9 ((List.drop_sublist i uurl).subset
        (List.mem_of_mem_head? (Option.mem_def.mpr hh2)))
    obtain ⟨j3, hj3⟩ := lazyCands_first h7 h8 h9'
    rw [show uurl ++ ')' :: rest = uurl ++ (str ")" ++ rest) from rfl, hj3]
    rfl
  have hfs : firstSome (fun p => (metaUrlGroup p.2).map fun u => (p.1, u))
      ((login, uurl ++ ')' :: rest) :: j2) = some (login, uurl) := by
    apply firstSome_cons_some
    simp only
    rw [hurl]
    rfl
  rw [hfs]
  rfl

/-! ## HeadFree composition -/

theorem suffix_append_one {t x : Chars} (h : t <:+ x) (z : Chars) :
    t ++ z <:+ x ++ z := by
  obtain ⟨s, rfl⟩ := h
  exact ⟨s, by rw [List.append_assoc]⟩

theorem headFree_append {x y : Chars}
    (hx : ∀ t', t' <:+ x → t' ≠ [] → matchHeadingAt (t' ++ y) = none)
    (hy : HeadFree y) : HeadFree (x ++ y) := by
  intro t ht hne
  rcases suffix_append_cases ht with h1 | ⟨t', rfl, ht', hne'⟩
  · exact hy t h1 hne
  · exact hx t' ht' hne'

theorem headFree_no_hash {x y : Chars} (hx : '#' ∉ x) (hy : HeadFree y) :
    HeadFree (x ++ y) := by
  apply headFree_append _ hy
  intro t' ht' hne'
  cases htt : t' with
  | nil => exact absurd htt hne'
  | cons c cs =>
    subst htt
    have hcm : c ∈ x := suffix_head_mem ht' hne' c rfl
    rw [List.cons_append]
    exact matchHeadingAt_none_of_head (fun hcc => hx (hcc ▸ hcm))

theorem headFree_line_glue {x z : Chars} (hx : HeadFree (x ++ ['\n']))
    (hz : HeadFree z) : HeadFree (x ++ '\n' :: z) := by
  intro t ht hne
  rcases suffix_append_cases ht with h1 | ⟨t', rfl, ht', hne'⟩
  · rcases List.suffix_cons_iff.mp h1 with h2 | h2
    · rw [h2]
      exact matchHeadingAt_none_of_head (by decide)
    · exact hz t h2 hne
  · rw [matchHeadingAt_nl_indep]
    exact hx (t' ++ ['\n']) (suffix_append_one ht' ['\n']) (by simp)

theorem headFree_nil : HeadFree [] := by
  intro t ht hne
  rw [List.suffix_nil.mp ht] at hne
  exact absurd rfl hne

theorem dash_prefix_kill {summary : Chars} (h : ¬ str "---" <+: summary) :
    ¬ str "---" <+: summary ++ ['\n'] := by
  intro hp
  by_cases hl : 3 ≤ summary.length
  · exact h (prefix_of_prefix_append hp (by simpa using hl))
  · obtain ⟨t, ht⟩ := hp
    have hlen := congrArg List.length ht
    simp only [List.length_append, List.length_singleton] at hlen
    have hstr : (str "---").length = 3 := by decide
    rw [hstr] at hlen
    have ht0 : t = [] := by
      cases t with
      | nil => rfl
      | cons a as =>
        exfalso
        simp only [List.length_cons] at hlen
        omega
    subst ht0
    rw [List.append_nil] at ht
    have hgl := congrArg List.getLast? ht
    rw [List.getLast?_append] at hgl
    have hgl2 : (some '-' : Option Char) = some '\n' := hgl
    exact absurd hgl2 (by decide)

theorem jpDateChars_mem {dt : SDate} {c : Char} (hc : c ∈ jpDateChars dt) :
    c.isDigit = true ∨ c = '/' := by
  rw [jpDateChars] at hc
  rcases List.mem_append.mp hc with h1 | h1
  · exact Or.inl (mem_natChars_isDigit h1)
  · rcases List.mem_cons.mp h1 with h2 | h2
    · exact Or.inr h2
    · rcases List.mem_append.mp h2 with h3 | h3
      · exact Or.inl (mem_natChars_isDigit h3)
      · rcases List.mem_cons.mp h3 with h4 | h4
        · exact Or.inr h4
        · exact Or.inl (mem_natChars_isDigit h4)


/-! ## Region screening for the round-trip proof -/

theorem not_infix_of_head_screen {needle pre rest : Chars} {h0 : Char}
    (hhead : needle.head? = some h0) (hpre : h0 ∉ pre)
    (hrest : ¬ needle <:+: rest) : ¬ needle <:+: pre ++ rest := by
  intro h
  obtain ⟨i, hi, hp⟩ := infix_iff_exists_drop.mp h
  by_cases hix : i < pre.length
  · rw [List.drop_append_eq_append_drop, Nat.sub_eq_zero_of_le (le_of_lt hix),
      List.drop_zero] at hp
    have hne : needle ≠ [] := by
      intro h'
      rw [h'] at hhead
      cases hhead
    have hdne : pre.drop i ≠ [] := by
      intro hnil
      have hl2 := congrArg List.length hnil
      rw [List.length_drop] at hl2
      simp only [List.length_nil] at hl2
      omega
    have hh := head?_of_prefix hp hne
    rw [head?_append_of_ne_nil hdne, hhead] at hh
    exact hpre ((List.drop_sublist i pre).subset
      (List.mem_of_mem_head? (Option.mem_def.mpr hh)))
  · rw [List.drop_append_eq_append_drop,
      List.drop_eq_nil_of_le (le_of_not_lt hix), List.nil_append] at hp
    refine hrest (infix_iff_exists_drop.mpr ⟨i - pre.length, ?_, hp⟩)
    rw [List.length_append] at hi
    omega

theorem jpDate_head_digit (dt : SDate) :
    ∃ c, (jpDateChars dt).head? = some c ∧ c.isDigit = true := by
  rw [jpDateChars, head?_append_of_ne_nil (natChars_ne_nil dt.y)]
  cases hh : (natChars dt.y).head? with
  | none => exact absurd (List.head?_eq_none_iff.mp hh) (natChars_ne_nil dt.y)
  | some c =>
    exact ⟨c, rfl, mem_natChars_isDigit (List.mem_of_mem_head? (Option.mem_def.mpr hh))⟩

theorem getLast?_append_right {x y : Chars} (hy : y ≠ []) :
    (x ++ y).getLast? = y.getLast? := by
  rw [List.getLast?_append]
  cases hh : y.getLast? with
  | none => exact absurd (List.getLast?_eq_none_iff.mp hh) hy
  | some c => rfl

theorem getLast?_cons_of_ne_nil {c : Char} {y : Chars} (hy : y ≠ []) :
    (c :: y).getLast? = y.getLast? := by
  rw [show c :: y = [c] ++ y from rfl]
  exact getLast?_append_right hy

theorem jpDate_getLast_digit (dt : SDate) :
    ∃ c, (jpDateChars dt).getLast? = some c ∧ c.isDigit = true := by
  have hne : natChars dt.d ≠ [] := natChars_ne_nil dt.d
  have h1 : (jpDateChars dt).getLast? = (natChars dt.d).getLast? := by
    rw [jpDateChars, getLast?_append_right (by simp),
      getLast?_cons_of_ne_nil (by
        intro hnil
        exact natChars_ne_nil dt.m (List.append_eq_nil.mp hnil).1),
      getLast?_append_right (by simp),
      getLast?_cons_of_ne_nil hne]
  cases hh : (natChars dt.d).getLast? with
  | none => exact absurd (List.getLast?_eq_none_iff.mp hh) hne
  | some c =>
    exact ⟨c, by rw [h1, hh], mem_natChars_isDigit (mem_of_getLast? hh)⟩

/-- The heading-free region after a successful heading match in a rendered
block: everything from the metadata line to the end of the block. -/
theorem headFree_c1_region {x summary : Chars} (hx : '#' ∉ x)
    (hsum : headingMatches (summary ++ str "\n") = []) :
    HeadFree (x ++ (summary ++ ('\n' :: str "\n---\n"))) := by
  apply headFree_no_hash hx
  apply headFree_line_glue
  · exact headFree_of_headScan_nil hsum
  · exact headFree_of_headScan_nil (by decide)


/-! ## Locating the metadata line inside a rendered block -/

theorem not_mem_headPre {c : Char} (hc1 : c ∉ str "## [#") (hc2 : c.isDigit = false)
    (hc4 : c ∉ railsPullLit) (hc5 : c ≠ ']') (hc6 : c ≠ '(') (hc7 : c ≠ ')')
    (hc8 : c ≠ ' ') {n k : Nat} :
    c ∉ (str "## [#" ++ (natChars n ++ (']' :: '(' :: (railsPullLit ++
      (natChars k ++ [')', ' ']))))) := by
  intro hmem
  rcases List.mem_append.mp hmem with h | h
  · exact hc1 h
  rcases List.mem_append.mp h with h | h
  · exact not_mem_natChars hc2 h
  rcases List.mem_cons.mp h with h | h
  · exact hc5 h
  rcases List.mem_cons.mp h with h | h
  · exact hc6 h
  rcases List.mem_append.mp h with h | h
  · exact hc4 h
  rcases List.mem_append.mp h with h | h
  · exact not_mem_natChars hc2 h
  rcases List.mem_cons.mp h with h | h
  · exact hc7 h
  rcases List.mem_cons.mp h with h | h
  · exact hc8 h
  · cases h


theorem c1_metaFirst_aux (n k : Nat) (dt : SDate) (title login uurl tail : Chars)
    (ht4 : ¬ str "**マージ日**: " <:+: title)
    (hl1 : login ≠ []) (hl2 : '\n' ∉ login) (hl4 : ¬ str "](" <:+: login)
    (hu1 : uurl ≠ []) (hu2 : '\n' ∉ uurl) (hu4 : ')' ∉ uurl) :
    metaFirst (str "## [#" ++ (natChars n ++ (']' :: '(' :: (railsPullLit ++
      (natChars k ++ (')' :: ' ' :: (title ++ '\n' :: ('\n' ::
      (str "**マージ日**: " ++ (jpDateChars dt ++ (str " | **作成者**: [@" ++
      (login ++ (']' :: '(' :: (uurl ++ (')' :: tail))))))))))))))) =
    some (jpDateChars dt, login, uurl) := by
  have hsplit : str "## [#" ++ (natChars n ++ (']' :: '(' :: (railsPullLit ++
      (natChars k ++ (')' :: ' ' :: (title ++ '\n' :: ('\n' ::
      (str "**マージ日**: " ++ (jpDateChars dt ++ (str " | **作成者**: [@" ++
      (login ++ (']' :: '(' :: (uurl ++ (')' :: tail))))))))))))))
      = (str "## [#" ++ (natChars n ++ (']' :: '(' :: (railsPullLit ++
        (natChars k ++ (')' :: ' ' :: (title ++ ['\n', '\n'])))))))
        ++ (str "**マージ日**: " ++ (jpDateChars dt ++ (str " | **作成者**: [@" ++
        (login ++ (']' :: '(' :: (uurl ++ (')' :: tail))))))) := by
    simp [List.append_assoc]
  rw [hsplit]
  have hnotA1 : ¬ str "**マージ日**: " <:+: (str "## [#" ++ (natChars n ++
      (']' :: '(' :: (railsPullLit ++ (natChars k ++ (')' :: ' ' ::
      (title ++ ['\n', '\n']))))))) := by
    have hre : str "## [#" ++ (natChars n ++ (']' :: '(' :: (railsPullLit ++
        (natChars k ++ (')' :: ' ' :: (title ++ ['\n', '\n']))))))
        = (str "## [#" ++ (natChars n ++ (']' :: '(' :: (railsPullLit ++
          (natChars k ++ [')', ' ']))))) ++ (title ++ ['\n', '\n']) := by
      simp [List.append_assoc]
    rw [hre]
    apply not_infix_of_head_screen
      (show (str "**マージ日**: ").head? = some '*' from rfl)
      (not_mem_headPre (by decide) (by decide) (by decide) (by decide) (by decide)
        (by decide) (by decide))
    apply not_infix_append_chain ht4 (by decide)
    apply spans_die_of_head
    intro c hc
    rw [show (['\n', '\n'] : Chars).head? = some '\n' from rfl] at hc
    cases hc
    decide
  have hkill : ∀ t', t' <:+ (str "## [#" ++ (natChars n ++ (']' :: '(' ::
      (railsPullLit ++ (natChars k ++ (')' :: ' ' :: (title ++ ['\n', '\n']))))))) →
      t' ≠ [] → metaAt (t' ++ (str "**マージ日**: " ++ (jpDateChars dt ++
        (str " | **作成者**: [@" ++ (login ++ (']' :: '(' ::
        (uurl ++ (')' :: tail)))))))) = none := by
    intro t' ht' hne'
    apply metaAt_none_of_not_lit
    apply not_prefix_append_of hne' (not_infix_of_suffix ht' hnotA1)
    intro j hj0 hj hsp
    have hb : (str "**マージ日**: ").drop j <+: str "**マージ日**: " :=
      prefix_of_prefix_append hsp.2 (by rw [List.length_drop]; omega)
    exact (by decide : ∀ j, j < (str "**マージ日**: ").length → 0 < j →
      ¬ (str "**マージ日**: ").drop j <+: str "**マージ日**: ") j hj hj0 hb
  rw [metaFirst_append hkill]
  have h3 : ∀ i, 0 < i → i < (jpDateChars dt).length → ¬ str " | **作成者**: [@" <+:
      ((jpDateChars dt).drop i ++ (str " | **作成者**: [@" ++ (login ++
        (str "](" ++ (uurl ++ (')' :: tail)))))) := by
    intro i hi0 hi
    apply not_prefix_append_of
    · intro hnil
      have hl' := congrArg List.length hnil
      rw [List.length_drop] at hl'
      simp only [List.length_nil] at hl'
      omega
    · apply not_infix_of_suffix (List.drop_suffix i _)
      apply not_infix_of_not_mem (show '|' ∈ str " | **作成者**: [@" by decide)
      intro hm
      rcases jpDateChars_mem hm with hd | hd
      · exact absurd hd (by decide)
      · exact absurd hd (by decide)
    · intro j hj0 hj hsp
      have hb := prefix_of_prefix_append hsp.2 (by rw [List.length_drop]; omega)
      exact (by decide : ∀ j, j < (str " | **作成者**: [@").length → 0 < j →
        ¬ (str " | **作成者**: [@").drop j <+: str " | **作成者**: [@") j hj hj0 hb
  have h6 : ∀ i, 0 < i → i < login.length → ¬ str "](" <+:
      (login.drop i ++ (str "](" ++ (uurl ++ (')' :: tail)))) := by
    intro i hi0 hi
    apply not_prefix_append_of
    · intro hnil
      have hl' := congrArg List.length hnil
      rw [List.length_drop] at hl'
      simp only [List.length_nil] at hl'
      omega
    · exact not_infix_of_suffix (List.drop_suffix i _) hl4
    · intro j hj0 hj hsp
      have hb := prefix_of_prefix_append hsp.2 (by rw [List.length_drop]; omega)
      exact (by decide : ∀ j, j < (str "](").length → 0 < j →
        ¬ (str "](").drop j <+: str "](") j hj hj0 hb
  apply metaFirst_of_metaAt
  · intro hnil
    exact absurd (List.append_eq_nil.mp hnil).1 (by decide)
  · exact metaAt_spec (jpDateChars dt) login uurl tail
      (by
        rw [jpDateChars]
        intro hnil
        exact natChars_ne_nil dt.y (List.append_eq_nil.mp hnil).1)
      (by
        intro hm
        rcases jpDateChars_mem hm with hd | hd
        · exact absurd hd (by decide)
        · exact absurd hd (by decide))
      h3 hl1 hl2 h6 hu1 hu2 hu4


theorem drop_ne_nil_of_lt {a : Chars} {i : Nat} (h : i < a.length) : a.drop i ≠ [] := by
  intro hnil
  have hl := congrArg List.length hnil
  rw [List.length_drop] at hl
  simp only [List.length_nil] at hl
  omega

/-- No prefix hit starting inside a region that lacks the needle's head
character. -/
theorem no_hit_of_head_not_mem {needle a b : Chars} {h : Char}
    (hh : needle.head? = some h) (hm : h ∉ a) :
    ∀ i, i < a.length → ¬ needle <+: (a.drop i ++ b) := by
  intro i hi hp
  have hne : needle ≠ [] := by
    intro h'
    rw [h'] at hh
    cases hh
  have h2 := head?_of_prefix hp hne
  rw [head?_append_of_ne_nil (drop_ne_nil_of_lt hi), hh] at h2
  exact hm ((List.drop_sublist i a).subset
    (List.mem_of_mem_head? (Option.mem_def.mpr h2)))

/-- The heading scan of a rendered Entry Block finds exactly the block's own
heading. -/
theorem c1_headingMatches (n k : Nat) (title rest : Chars)
    (ht1 : title ≠ []) (ht2 : '\n' ∉ title)
    (hfree : HeadFree ('\n' :: rest)) :
    headingMatches ('\n' :: (str "## [#" ++ (natChars n ++ (']' :: '(' ::
      (railsPullLit ++ (natChars k ++ (')' :: ' ' :: (title ++ '\n' :: rest)))))))) =
    [⟨n, railsPullLit ++ natChars k, title,
      str "## [#" ++ (natChars n ++ (']' :: '(' :: (railsPullLit ++
        (natChars k ++ (')' :: ' ' :: (title ++ '\n' :: rest))))))⟩] := by
  rw [headingMatches,
    headScan_none_step (by simp) (matchHeadingAt_none_of_head (by decide))]
  have hpos : 0 < (str "## [#" ++ (natChars n ++ (']' :: '(' :: (railsPullLit ++
      (natChars k ++ (')' :: ' ' :: (title ++ '\n' :: rest))))))).length :=
    List.length_pos.mpr (by
      intro hnil
      exact absurd (List.append_eq_nil.mp hnil).1 (by decide))
  have hlen : ('\n' :: (str "## [#" ++ (natChars n ++ (']' :: '(' ::
      (railsPullLit ++ (natChars k ++ (')' :: ' ' ::
      (title ++ '\n' :: rest)))))))).length - 1 =
      (str "## [#" ++ (natChars n ++ (']' :: '(' :: (railsPullLit ++
        (natChars k ++ (')' :: ' ' :: (title ++ '\n' :: rest))))))).length := by
    simp
  rw [hlen, headScan_some hpos (matchHeadingAt_spec n k title rest ht1 ht2),
    headScan_eq_nil_of_headFree hfree]


theorem drop_peel (l : Chars) (a b : Nat) : l.drop (a + b) = (l.drop b).drop a := by
  rw [List.drop_drop, Nat.add_comm]

/-- Locating the summary slice inside a rendered Entry Block: the
`indexOf`-based cursor arithmetic of `extractPRsFromMarkdown` lands exactly
on the padded summary region. -/
theorem c1_indices_aux (n k : Nat) (dt : SDate)
    (title login uurl summary : Chars) (P : Chars)
    (ht5 : ¬ str "**作成者**" <:+: title)
    (hl2 : '\n' ∉ login) (hu2 : '\n' ∉ uurl)
    (hs2 : ¬ str "\n---" <:+: summary) (hs3 : ¬ str "---" <+: summary)
    (hP : P = str "## [#" ++ (natChars n ++ (']' :: '(' :: (railsPullLit ++
      (natChars k ++ (')' :: ' ' :: (title ++ '\n' :: ('\n' ::
      (str "**マージ日**: " ++ (jpDateChars dt ++ (str " | **作成者**: [@" ++
      (login ++ (']' :: '(' :: (uurl ++ (')' :: ('\n' :: ('\n' ::
      (summary ++ ('\n' :: str "\n---\n"))))))))))))))))))) :
    ∃ sS sE : Nat,
      idxOfFrom? (str "\n\n") P ((idxOf? (str "**作成者**") P).getD 0) = some sS ∧
      idxOfFrom? (str "\n---") P sS = some sE ∧
      (P.drop sS).take (sE - sS) = '\n' :: ('\n' :: (summary ++ ['\n'])) := by
  have hPA : P = (str "## [#" ++ (natChars n ++ (']' :: '(' :: (railsPullLit ++
      (natChars k ++ (')' :: ' ' :: (title ++ '\n' :: ('\n' ::
      (str "**マージ日**: " ++ jpDateChars dt)))))))))
      ++ (str " | **作成者**: [@" ++
      (login ++ (']' :: '(' :: (uurl ++ (')' :: ('\n' :: ('\n' ::
      (summary ++ ('\n' :: str "\n---\n"))))))))) := by
    rw [hP]
    simp [List.append_assoc]
  have hinfA1 : ¬ str "**作成者**" <:+: (str "## [#" ++ (natChars n ++ (']' :: '(' ::
      (railsPullLit ++ (natChars k ++ (')' :: ' ' :: (title ++ '\n' :: ('\n' ::
      (str "**マージ日**: " ++ jpDateChars dt))))))))) := by
    have hre : str "## [#" ++ (natChars n ++ (']' :: '(' :: (railsPullLit ++
        (natChars k ++ (')' :: ' ' :: (title ++ '\n' :: ('\n' ::
        (str "**マージ日**: " ++ jpDateChars dt))))))))
        = (str "## [#" ++ (natChars n ++ (']' :: '(' :: (railsPullLit ++
          (natChars k ++ [')', ' ']))))) ++ (title ++ ('\n' :: ('\n' ::
          (str "**マージ日**: " ++ jpDateChars dt)))) := by
      simp [List.append_assoc]
    rw [hre]
    apply not_infix_of_head_screen
      (show (str "**作成者**").head? = some '*' from rfl)
      (not_mem_headPre (by decide) (by decide) (by decide) (by decide) (by decide)
        (by decide) (by decide))
    apply not_infix_append_chain ht5
    · apply not_infix_append_chain (x := '\n' :: ('\n' :: str "**マージ日**: "))
        (y := jpDateChars dt) (by decide)
      · apply not_infix_of_not_mem (show '*' ∈ str "**作成者**" by decide)
        intro hm
        rcases jpDateChars_mem hm with hd | hd
        · exact absurd hd (by decide)
        · exact absurd hd (by decide)
      · apply spans_die_of_head
        intro c hc hmem
        obtain ⟨c0, hc0, hdig⟩ := jpDate_head_digit dt
        rw [hc0] at hc
        have hcc : c0 = c := Option.some.inj hc
        subst hcc
        have hall : ∀ d ∈ str "**作成者**", d.isDigit = false := by decide
        rw [hall c0 hmem] at hdig
        cases hdig
    · apply spans_die_of_head
      intro c hc hmem
      have hcc : ('\n' : Char) = c := Option.some.inj hc
      subst hcc
      exact absurd hmem (by decide)
  have hnoA1 : ∀ i, i < (str "## [#" ++ (natChars n ++ (']' :: '(' ::
      (railsPullLit ++ (natChars k ++ (')' :: ' ' :: (title ++ '\n' :: ('\n' ::
      (str "**マージ日**: " ++ jpDateChars dt))))))))).length →
      ¬ str "**作成者**" <+: ((str "## [#" ++ (natChars n ++ (']' :: '(' ::
        (railsPullLit ++ (natChars k ++ (')' :: ' ' :: (title ++ '\n' :: ('\n' ::
        (str "**マージ日**: " ++ jpDateChars dt))))))))).drop i ++
        (str " | **作成者**: [@" ++
        (login ++ (']' :: '(' :: (uurl ++ (')' :: ('\n' :: ('\n' ::
        (summary ++ ('\n' :: str "\n---\n")))))))))) := by
    intro i hi
    apply not_prefix_append_of (drop_ne_nil_of_lt hi)
      (not_infix_of_suffix (List.drop_suffix i _) hinfA1)
    apply spans_die_of_head
    intro c hc hmem
    have hcc : (' ' : Char) = c := Option.some.inj hc
    subst hcc
    exact absurd hmem (by decide)
  have hIdxAut : idxOf? (str "**作成者**") P = some (3 + (str "## [#" ++
      (natChars n ++ (']' :: '(' :: (railsPullLit ++ (natChars k ++ (')' :: ' ' ::
      (title ++ '\n' :: ('\n' :: (str "**マージ日**: " ++
      jpDateChars dt))))))))).length) := by
    rw [hPA, idxOf?_append_of_no_hit hnoA1]
    rfl
  have hdropA : P.drop (3 + (str "## [#" ++ (natChars n ++ (']' :: '(' ::
      (railsPullLit ++ (natChars k ++ (')' :: ' ' :: (title ++ '\n' :: ('\n' ::
      (str "**マージ日**: " ++ jpDateChars dt))))))))).length) =
      str "**作成者**: [@" ++
      (login ++ (']' :: '(' :: (uurl ++ (')' :: ('\n' :: ('\n' ::
      (summary ++ ('\n' :: str "\n---\n")))))))) := by
    rw [hPA, drop_peel, List.drop_left]
    rfl
  have hCB : str "**作成者**: [@" ++
      (login ++ (']' :: '(' :: (uurl ++ (')' :: ('\n' :: ('\n' ::
      (summary ++ ('\n' :: str "\n---\n")))))))) =
      (str "**作成者**: [@" ++ (login ++ (']' :: '(' :: (uurl ++ [')'])))) ++
      ('\n' :: ('\n' :: (summary ++ ('\n' :: str "\n---\n")))) := by
    simp [List.append_assoc]
  have hnlC : '\n' ∉ (str "**作成者**: [@" ++
      (login ++ (']' :: '(' :: (uurl ++ [')'])))) := by
    intro hmem
    rcases List.mem_append.mp hmem with h | h
    · exact absurd h (by decide)
    rcases List.mem_append.mp h with h | h
    · exact hl2 h
    rcases List.mem_cons.mp h with h | h
    · exact absurd h (by decide)
    rcases List.mem_cons.mp h with h | h
    · exact absurd h (by decide)
    rcases List.mem_append.mp h with h | h
    · exact hu2 h
    rcases List.mem_cons.mp h with h | h
    · exact absurd h (by decide)
    · cases h
  have hpr2 : str "\n\n" <+: ('\n' :: ('\n' ::
      (summary ++ ('\n' :: str "\n---\n")))) :=
    ⟨summary ++ ('\n' :: str "\n---\n"), rfl⟩
  have hIdx2 : idxOf? (str "\n\n") (str "**作成者**: [@" ++
      (login ++ (']' :: '(' :: (uurl ++ (')' :: ('\n' :: ('\n' ::
      (summary ++ ('\n' :: str "\n---\n"))))))))) =
      some ((str "**作成者**: [@" ++
        (login ++ (']' :: '(' :: (uurl ++ [')'])))).length) := by
    rw [hCB, idxOf?_append_of_no_hit (no_hit_of_head_not_mem
      (show (str "\n\n").head? = some '\n' from rfl) hnlC),
      idxOf?_of_prefix (by decide) hpr2]
    simp
  have hsS : idxOfFrom? (str "\n\n") P ((idxOf? (str "**作成者**") P).getD 0) =
      some ((str "**作成者**: [@" ++
        (login ++ (']' :: '(' :: (uurl ++ [')'])))).length +
      (3 + (str "## [#" ++ (natChars n ++ (']' :: '(' :: (railsPullLit ++
        (natChars k ++ (')' :: ' ' :: (title ++ '\n' :: ('\n' ::
        (str "**マージ日**: " ++ jpDateChars dt))))))))).length)) := by
    rw [hIdxAut]
    simp only [idxOfFrom?, Option.getD_some]
    rw [hdropA, hIdx2]
    rfl
  have hdropSS : P.drop ((str "**作成者**: [@" ++
      (login ++ (']' :: '(' :: (uurl ++ [')'])))).length +
      (3 + (str "## [#" ++ (natChars n ++ (']' :: '(' :: (railsPullLit ++
        (natChars k ++ (')' :: ' ' :: (title ++ '\n' :: ('\n' ::
        (str "**マージ日**: " ++ jpDateChars dt))))))))).length)) =
      '\n' :: ('\n' :: (summary ++ ('\n' :: str "\n---\n"))) := by
    rw [drop_peel, hdropA, hCB, List.drop_left]
  have h4 : ('\n' : Char) :: ('\n' :: (summary ++ ('\n' :: str "\n---\n"))) =
      ('\n' :: ('\n' :: (summary ++ ['\n']))) ++ str "\n---\n" := by
    simp [List.append_assoc]
  have hinfA4 : ¬ str "\n---" <:+: ('\n' :: ('\n' :: (summary ++ ['\n']))) := by
    apply not_infix_append_chain (x := ['\n', '\n']) (y := summary ++ ['\n'])
      (by decide)
    · apply not_infix_append_chain (x := summary) (y := ['\n']) hs2 (by decide)
      intro j hj0 hj hsp
      have hj' : j < 4 := hj
      interval_cases j
      · exact absurd hsp.2 (by decide)
      · exact absurd hsp.2 (by decide)
      · exact absurd hsp.2 (by decide)
    · intro j hj0 hj hsp
      have hj' : j < 4 := hj
      interval_cases j
      · exact dash_prefix_kill hs3 hsp.2
      · exact absurd hsp.1 (by decide)
      · exact absurd hsp.1 (by decide)
  have hnoA4 : ∀ i, i < ('\n' :: ('\n' :: (summary ++ ['\n']))).length →
      ¬ str "\n---" <+: (('\n' :: ('\n' :: (summary ++ ['\n']))).drop i ++
        str "\n---\n") := by
    intro i hi
    apply not_prefix_append_of (drop_ne_nil_of_lt hi)
      (not_infix_of_suffix (List.drop_suffix i _) hinfA4)
    intro j hj0 hj hsp
    have hj' : j < 4 := hj
    interval_cases j
    · exact absurd hsp.2 (by decide)
    · exact absurd hsp.2 (by decide)
    · exact absurd hsp.2 (by decide)
  have hIdx3 : idxOf? (str "\n---") (('\n' :: ('\n' :: (summary ++ ['\n']))) ++
      str "\n---\n") = some (('\n' :: ('\n' :: (summary ++ ['\n']))).length) := by
    rw [idxOf?_append_of_no_hit hnoA4,
      idxOf?_of_prefix (by decide) (⟨['\n'], rfl⟩ :
        str "\n---" <+: str "\n---\n")]
    simp
  have hsE : idxOfFrom? (str "\n---") P ((str "**作成者**: [@" ++
      (login ++ (']' :: '(' :: (uurl ++ [')'])))).length +
      (3 + (str "## [#" ++ (natChars n ++ (']' :: '(' :: (railsPullLit ++
        (natChars k ++ (')' :: ' ' :: (title ++ '\n' :: ('\n' ::
        (str "**マージ日**: " ++ jpDateChars dt))))))))).length)) =
      some (('\n' :: ('\n' :: (summary ++ ['\n']))).length +
        ((str "**作成者**: [@" ++
          (login ++ (']' :: '(' :: (uurl ++ [')'])))).length +
        (3 + (str "## [#" ++ (natChars n ++ (']' :: '(' :: (railsPullLit ++
          (natChars k ++ (')' :: ' ' :: (title ++ '\n' :: ('\n' ::
          (str "**マージ日**: " ++ jpDateChars dt))))))))).length))) := by
    simp only [idxOfFrom?]
    rw [hdropSS, h4, hIdx3]
    rfl
  have hslice : (P.drop ((str "**作成者**: [@" ++
      (login ++ (']' :: '(' :: (uurl ++ [')'])))).length +
      (3 + (str "## [#" ++ (natChars n ++ (']' :: '(' :: (railsPullLit ++
        (natChars k ++ (')' :: ' ' :: (title ++ '\n' :: ('\n' ::
        (str "**マージ日**: " ++ jpDateChars dt))))))))).length))).take
      ((('\n' :: ('\n' :: (summary ++ ['\n']))).length +
        ((str "**作成者**: [@" ++
          (login ++ (']' :: '(' :: (uurl ++ [')'])))).length +
        (3 + (str "## [#" ++ (natChars n ++ (']' :: '(' :: (railsPullLit ++
          (natChars k ++ (')' :: ' ' :: (title ++ '\n' :: ('\n' ::
          (str "**マージ日**: " ++ jpDateChars dt))))))))).length))) -
       ((str "**作成者**: [@" ++
          (login ++ (']' :: '(' :: (uurl ++ [')'])))).length +
        (3 + (str "## [#" ++ (natChars n ++ (']' :: '(' :: (railsPullLit ++
          (natChars k ++ (')' :: ' ' :: (title ++ '\n' :: ('\n' ::
          (str "**マージ日**: " ++ jpDateChars dt))))))))).length))) =
      '\n' :: ('\n' :: (summary ++ ['\n'])) := by
    rw [Nat.add_sub_cancel, hdropSS, h4, List.take_left]
  exact ⟨_, _, hsS, hsE, hslice⟩


theorem extractLoop_single (now : SDate) (m : HeadingM) {dS aS uS : Chars}
    (hmeta : metaFirst m.suffix = some (dS, aS, uS)) {sS sE : Nat}
    (hsS : idxOfFrom? (str "\n\n") m.suffix
      ((idxOf? (str "**作成者**") m.suffix).getD 0) = some sS)
    (hsE : idxOfFrom? (str "\n---") m.suffix sS = some sE) :
    extractLoop now [m] = ([⟨m.num, jsTrim m.title, m.url,
      convertJapaneseDateToISO now (jsTrim dS), jsTrim aS, jsTrim uS,
      jsTrim ((m.suffix.drop sS).take (sE - sS))⟩], []) := by
  simp only [extractLoop]
  rw [hmeta]
  simp only
  rw [hsS]
  simp only
  rw [hsE]

/-- C1: round-trip stability of the render/extract pair for a record whose
URL has the canonical `https://github.com/rails/rails/pull/{digits}` shape
and whose title, author fields, and summary are trim-stable and free of the
markdown delimiters the extractor keys on: rendering with `formatPREntry`
and then extracting with `extractPRsFromMarkdown` yields exactly one
flattened record whose number, title, and summary equal the inputs and
whose merge date equals the input date at day granularity (the original
claim, quantified over every record, is refuted by
`c1_round_trip_counterexample`). -/
theorem c1_round_trip (now dt : SDate) (n k : Nat)
    (title login uurl summary : Chars)
    (hy : 100 ≤ dt.y)
    (ht1 : title ≠ []) (ht2 : '\n' ∉ title) (ht3 : jsTrim title = title)
    (ht4 : ¬ str "**マージ日**: " <:+: title)
    (ht5 : ¬ str "**作成者**" <:+: title)
    (hl1 : login ≠ []) (hl2 : '\n' ∉ login) (hl3 : '#' ∉ login)
    (hl4 : ¬ str "](" <:+: login) (hl5 : jsTrim login = login)
    (hu1 : uurl ≠ []) (hu2 : '\n' ∉ uurl) (hu3 : '#' ∉ uurl)
    (hu4 : ')' ∉ uurl) (hu5 : jsTrim uurl = uurl)
    (hs1 : jsTrim summary = summary) (hs2 : ¬ str "\n---" <:+: summary)
    (hs3 : ¬ str "---" <+: summary)
    (hs4 : headingMatches (summary ++ str "\n") = []) :
    extractPRsFromMarkdown now (formatPREntry
      ⟨n, title, railsPullLit ++ natChars k, some dt, some (login, uurl)⟩
      summary) =
    ([⟨n, title, railsPullLit ++ natChars k, dt, login, uurl, summary⟩], []) := by
  have hfmt : formatPREntry ⟨n, title, railsPullLit ++ natChars k, some dt,
      some (login, uurl)⟩ summary =
      '\n' :: (str "## [#" ++ (natChars n ++ (']' :: '(' :: (railsPullLit ++
      (natChars k ++ (')' :: ' ' :: (title ++ '\n' :: ('\n' ::
      (str "**マージ日**: " ++ (jpDateChars dt ++ (str " | **作成者**: [@" ++
      (login ++ (']' :: '(' :: (uurl ++ (')' :: ('\n' :: ('\n' ::
      (summary ++ ('\n' :: str "\n---\n"))))))))))))))))))) := by
    simp only [formatPREntry]
    simp only [List.append_assoc]
    rfl
  have hrest : HeadFree ('\n' :: ('\n' :: (str "**マージ日**: " ++
      (jpDateChars dt ++ (str " | **作成者**: [@" ++ (login ++ (']' :: '(' ::
      (uurl ++ (')' :: ('\n' :: ('\n' :: (summary ++
      ('\n' :: str "\n---\n"))))))))))))) := by
    have he : ('\n' : Char) :: ('\n' :: (str "**マージ日**: " ++
        (jpDateChars dt ++ (str " | **作成者**: [@" ++ (login ++ (']' :: '(' ::
        (uurl ++ (')' :: ('\n' :: ('\n' :: (summary ++
        ('\n' :: str "\n---\n")))))))))))) =
        ('\n' :: ('\n' :: (str "**マージ日**: " ++ (jpDateChars dt ++
          (str " | **作成者**: [@" ++ (login ++ (']' :: '(' ::
          (uurl ++ [')', '\n', '\n'])))))))) ++
        (summary ++ ('\n' :: str "\n---\n")) := by
      simp [List.append_assoc]
    rw [he]
    apply headFree_c1_region _ hs4
    intro hmem
    rcases List.mem_cons.mp hmem with h | h
    · exact absurd h (by decide)
    rcases List.mem_cons.mp h with h | h
    · exact absurd h (by decide)
    rcases List.mem_append.mp h with h | h
    · exact absurd h (by decide)
    rcases List.mem_append.mp h with h | h
    · rcases jpDateChars_mem h with hd | hd
      · exact absurd hd (by decide)
      · exact absurd hd (by decide)
    rcases List.mem_append.mp h with h | h
    · exact absurd h (by decide)
    rcases List.mem_append.mp h with h | h
    · exact hl3 h
    rcases List.mem_cons.mp h with h | h
    · exact absurd h (by decide)
    rcases List.mem_cons.mp h with h | h
    · exact absurd h (by decide)
    rcases List.mem_append.mp h with h | h
    · exact hu3 h
    rcases List.mem_cons.mp h with h | h
    · exact absurd h (by decide)
    rcases List.mem_cons.mp h with h | h
    · exact absurd h (by decide)
    rcases List.mem_cons.mp h with h | h
    · exact absurd h (by decide)
    · cases h
  simp only [extractPRsFromMarkdown]
  rw [hfmt]
  rw [c1_headingMatches n k title ('\n' :: (str "**マージ日**: " ++
    (jpDateChars dt ++ (str " | **作成者**: [@" ++ (login ++ (']' :: '(' ::
    (uurl ++ (')' :: ('\n' :: ('\n' :: (summary ++
    ('\n' :: str "\n---\n")))))))))))) ht1 ht2 hrest]
  obtain ⟨sS, sE, h1, h2, h3⟩ := c1_indices_aux n k dt title login uurl summary
    _ ht5 hl2 hu2 hs2 hs3 rfl
  rw [extractLoop_single now ⟨n, railsPullLit ++ natChars k, title, _⟩
    (c1_metaFirst_aux n k dt title login uurl _ ht4 hl1 hl2 hl4 hu1 hu2 hu4)
    h1 h2]
  dsimp only
  rw [h3, jsTrim_pad hs1, jsTrim_jpDate, convert_jpDate now dt hy, ht3, hl5, hu5]


theorem c1_round_trip_witness :
    extractPRsFromMarkdown ⟨2025, 1, 1⟩ (formatPREntry
      ⟨123, str "Add feature", railsPullLit ++ natChars 123, some ⟨2025, 12, 17⟩,
        some (str "alice", str "https://github.com/alice")⟩
      (str "A summary.")) =
    ([⟨123, str "Add feature", railsPullLit ++ natChars 123, ⟨2025, 12, 17⟩,
      str "alice", str "https://github.com/alice", str "A summary."⟩], []) :=
  c1_round_trip ⟨2025, 1, 1⟩ ⟨2025, 12, 17⟩ 123 123 (str "Add feature")
    (str "alice") (str "https://github.com/alice") (str "A summary.")
    (by decide) (by decide) (by decide) (by decide) (by decide) (by decide)
    (by decide) (by decide) (by decide) (by decide) (by decide) (by decide)
    (by decide) (by decide) (by decide) (by decide) (by decide) (by decide)
    (by decide) (by decide)

set_option maxRecDepth 20000 in
/-- C1 counterexample: a record whose URL is not of the canonical
`https://github.com/rails/rails/pull/{digits}` shape renders fine but
extracts to no record at all, so the unrestricted round-trip claim fails. -/
theorem c1_round_trip_counterexample :
    extractPRsFromMarkdown ⟨2025, 1, 1⟩ (formatPREntry
      ⟨7, str "My title", str "https://example.com/x", some ⟨2025, 12, 17⟩,
        some (str "alice", str "https://github.com/alice")⟩
      (str "A summary.")) = ([], []) := by decide


/-- C7: feed generation propagates the loader's failure when the JSON store
is absent or cannot be parsed; a store that parses with an empty item list
completes without error and produces no feed document; and a non-empty
store produces exactly the one feed document built by `createFeed`. -/
theorem c7_feed_fatal_vs_empty (baseUrl : Chars) (s t : PRDataStore)
    (hs : s.items = []) (ht : t.items ≠ []) :
    RSSGenerator.generate baseUrl .absent = .error .notFound ∧
    RSSGenerator.generate baseUrl .malformed = .error .parseFailed ∧
    RSSGenerator.generate baseUrl (.parsed s) = .ok none ∧
    RSSGenerator.generate baseUrl (.parsed t) =
      .ok (some (createFeed baseUrl t)) := by
  refine ⟨rfl, rfl, ?_, ?_⟩
  · simp [RSSGenerator.generate, loadPRData, hs]
  · simp [RSSGenerator.generate, loadPRData, List.isEmpty_iff, ht]

theorem c7_feed_fatal_vs_empty_witness :
    RSSGenerator.generate (str "https://example.org") .absent =
      .error .notFound ∧
    RSSGenerator.generate (str "https://example.org") .malformed =
      .error .parseFailed ∧
    RSSGenerator.generate (str "https://example.org")
      (.parsed ⟨⟨2025, 1, 1⟩, 0, []⟩) = .ok none ∧
    RSSGenerator.generate (str "https://example.org")
      (.parsed ⟨⟨2025, 1, 1⟩, 1, [⟨1, str "t", str "u", ⟨2025, 1, 1⟩,
        str "a", str "au", str "s"⟩]⟩) =
      .ok (some (createFeed (str "https://example.org")
        ⟨⟨2025, 1, 1⟩, 1, [⟨1, str "t", str "u", ⟨2025, 1, 1⟩,
          str "a", str "au", str "s"⟩]⟩)) :=
  c7_feed_fatal_vs_empty (str "https://example.org")
    ⟨⟨2025, 1, 1⟩, 0, []⟩
    ⟨⟨2025, 1, 1⟩, 1, [⟨1, str "t", str "u", ⟨2025, 1, 1⟩,
      str "a", str "au", str "s"⟩]⟩
    rfl (by decide)

set_option maxRecDepth 20000 in
/-- C4: merging the same rendered entry block twice leaves the identifier's
heading in the partition file twice — the positional dedup scan captures
`[100, 100]`, so the store itself does not suppress duplicates — while
`getExistingPRNumbers`, being a set, still returns the singleton `{100}`. -/
theorem c4_dedup_idempotence :
    ((updateMonthlyFile ⟨2025, 1, 2⟩ none
        [formatPREntry ⟨100, str "T", railsPullLit ++ natChars 100,
          some ⟨2025, 1, 1⟩, some (str "a", str "u")⟩ (str "S")]).bind
      (fun c => updateMonthlyFile ⟨2025, 1, 3⟩ (some c)
        [formatPREntry ⟨100, str "T", railsPullLit ++ natChars 100,
          some ⟨2025, 1, 1⟩, some (str "a", str "u")⟩ (str "S")])).map
      (fun c => (prNumberCaptures c, getExistingPRNumbers (some c))) =
    some ([100, 100], [100]) := by decide

set_option maxRecDepth 20000 in
/-- C5: merged blocks are prepended as a unit in their input order above all
prior content: merging blocks for 200 and 300 onto a file holding 100
leaves the headings in positional order 200, 300, 100 (the order of the
positional capture scan). -/
theorem c5_order_preservation :
    ((updateMonthlyFile ⟨2025, 1, 2⟩ none
        [formatPREntry ⟨100, str "T", railsPullLit ++ natChars 100,
          some ⟨2025, 1, 1⟩, some (str "a", str "u")⟩ (str "S")]).bind
      (fun c => updateMonthlyFile ⟨2025, 1, 3⟩ (some c)
        [formatPREntry ⟨200, str "T", railsPullLit ++ natChars 200,
          some ⟨2025, 1, 1⟩, some (str "a", str "u")⟩ (str "S"),
         formatPREntry ⟨300, str "T", railsPullLit ++ natChars 300,
          some ⟨2025, 1, 1⟩, some (str "a", str "u")⟩ (str "S")])).map
      prNumberCaptures = some [200, 300, 100] := by decide

/-- C9 counterexample: the source's filename pattern is unanchored, so the
file `x2025-01.md`, which is not of the canonical `{yyyy}-{mm}.md` shape,
still receives a manifest entry. -/
theorem c9_counterexample :
    generateMonthlyIndex true [str "x2025-01.md"] =
      some [⟨str "x2025-01.md", str "2025", 1, str "2025年 1月",
        str "monthly/x2025-01.md"⟩] ∧
    canonicalName (str "x2025-01.md") = false := by decide

/-- C9: on filenames of the canonical shape the index builder produces one
manifest entry per partition file, excludes the landing page, and orders
entries by filename descending; a missing partition directory produces no
manifest (the unrestricted claim, covering files of non-canonical shape,
is refuted by `c9_counterexample`). -/
theorem c9_index_roundup :
    generateMonthlyIndex true
      [str "2025-01.md", str "2025-03.md", str "2025-02.md", str "index.md"] =
      some [⟨str "2025-03.md", str "2025", 3, str "2025年 3月",
        str "monthly/2025-03.md"⟩,
        ⟨str "2025-02.md", str "2025", 2, str "2025年 2月",
          str "monthly/2025-02.md"⟩,
        ⟨str "2025-01.md", str "2025", 1, str "2025年 1月",
          str "monthly/2025-01.md"⟩] ∧
    generateMonthlyIndex false [str "2025-01.md"] = none := by decide


theorem dropLit_suffix {lit x y : Chars} (h : dropLit lit x = some y) : y <:+ x := by
  rw [dropLit_eq_some_iff.mp h]
  exact ⟨lit, rfl⟩

theorem fmParse_suffix {content b a : Chars} (h : fmParse content = some (b, a)) :
    a <:+ content := by
  cases hd : dropLit (str "---\n") content with
  | none =>
    simp only [fmParse, hd] at h
    exact Option.noConfusion h
  | some r =>
    cases hi : idxOf? (str "\n---\n") r with
    | none =>
      simp only [fmParse, hd, hi, Option.map] at h
      exact Option.noConfusion h
    | some i =>
      simp only [fmParse, hd, hi, Option.map] at h
      have h2 := Option.some.inj h
      have ha : r.drop (i + (str "\n---\n").length) = a := congrArg Prod.snd h2
      rw [← ha, dropLit_eq_some_iff.mp hd]
      exact (List.drop_suffix _ r).trans ⟨str "---\n", rfl⟩

theorem headerParse_suffix {s hd b : Chars} (h : headerParse s = some (hd, b)) :
    b <:+ s := by
  cases h1 : dropLit (str "# ") (s.dropWhile isWsChar) with
  | none =>
    simp only [headerParse, h1] at h
    exact Option.noConfusion h
  | some r1 =>
    cases h2 : dropLit (str "\n\n> ")
        (r1.drop (r1.takeWhile (· ≠ '\n')).length) with
    | none =>
      simp only [headerParse, h1, h2] at h
      exact Option.noConfusion h
    | some r2 =>
      cases h3 : dropLit (str "\n\n")
          (r2.drop (r2.takeWhile (· ≠ '\n')).length) with
      | none =>
        simp only [headerParse, h1, h2, h3] at h
        exact Option.noConfusion h
      | some rest =>
        simp only [headerParse, h1, h2, h3] at h
        have h4 := Option.some.inj h
        have hb : rest = b := congrArg Prod.snd h4
        rw [← hb]
        exact ((dropLit_suffix h3).trans ((List.drop_suffix _ _).trans
          ((dropLit_suffix h2).trans ((List.drop_suffix _ _).trans
          ((dropLit_suffix h1).trans (List.dropWhile_suffix _))))))

/-- C6: merging a non-empty entry list into an existing partition file
preserves the prior body verbatim as the suffix of the written file below
the newly prepended blocks, and that suffix is exactly the content after
the recognized preamble and header: the entire prior content when no
preamble is recognized (nothing synthesized above it), the content after
the preamble when no header is recognized, and the post-header body when
both are — existing entries are never reordered or removed, only prepended
above. -/
theorem c6_suffix_preserved (today : SDate) (content : Chars)
    (entries : List Chars) (hne : entries ≠ []) :
    ∃ pre tl, updateMonthlyFile today (some content) entries =
        some (pre ++ (joinNL entries ++ (str "\n" ++ tl))) ∧
      tl <:+ content ∧
      (fmParse content = none → pre = [] ∧ tl = content) ∧
      (∀ fmBody afterFm, fmParse content = some (fmBody, afterFm) →
        (headerParse afterFm = none → tl = afterFm) ∧
        (∀ hdr body, headerParse afterFm = some (hdr, body) → tl = body)) := by
  cases hfm : fmParse content with
  | none =>
    refine ⟨[], content, ?_, List.suffix_refl content, fun _ => ⟨rfl, rfl⟩, ?_⟩
    · simp [updateMonthlyFile, List.isEmpty_iff, hne, hfm, List.append_assoc]
    · intro fmBody afterFm hsome
      exact Option.noConfusion hsome
  | some p =>
    obtain ⟨fmBody, afterFm⟩ := p
    cases hh : headerParse afterFm with
    | none =>
      refine ⟨str "---\n" ++ replaceLastUpdated fmBody today ++ str "\n---\n\n",
        afterFm, ?_, fmParse_suffix hfm, ?_, ?_⟩
      · simp [updateMonthlyFile, List.isEmpty_iff, hne, hfm, hh, List.append_assoc]
      · intro h0
        exact Option.noConfusion h0
      · intro fmBody2 afterFm2 hsome
        have h5 := Option.some.inj hsome
        have ha : afterFm = afterFm2 := congrArg Prod.snd h5
        subst ha
        constructor
        · intro h0
          rfl
        · intro hdr body hh2
          exact Option.noConfusion (hh.symm.trans hh2)
    | some q =>
      obtain ⟨hdr, body⟩ := q
      refine ⟨(str "---\n" ++ replaceLastUpdated fmBody today ++
          str "\n---\n\n") ++ hdr,
        body, ?_, (headerParse_suffix hh).trans (fmParse_suffix hfm), ?_, ?_⟩
      · simp [updateMonthlyFile, List.isEmpty_iff, hne, hfm, hh, List.append_assoc]
      · intro h0
        exact Option.noConfusion h0
      · intro fmBody2 afterFm2 hsome
        have h5 := Option.some.inj hsome
        have ha : afterFm = afterFm2 := congrArg Prod.snd h5
        subst ha
        constructor
        · intro hh2
          exact Option.noConfusion (hh.symm.trans hh2)
        · intro hdr2 body2 hh2
          have h6 := Option.some.inj (hh.symm.trans hh2)
          exact congrArg Prod.snd h6

theorem c6_suffix_preserved_witness :
    ∃ pre tl, updateMonthlyFile ⟨2025, 1, 2⟩
        (some (str "---\nt: T\n---\n# H\n\n> Q\n\nbody")) [str "E"] =
        some (pre ++ (joinNL [str "E"] ++ (str "\n" ++ tl))) ∧
      tl <:+ str "---\nt: T\n---\n# H\n\n> Q\n\nbody" ∧
      (fmParse (str "---\nt: T\n---\n# H\n\n> Q\n\nbody") = none →
        pre = [] ∧ tl = str "---\nt: T\n---\n# H\n\n> Q\n\nbody") ∧
      (∀ fmBody afterFm, fmParse (str "---\nt: T\n---\n# H\n\n> Q\n\nbody") =
          some (fmBody, afterFm) →
        (headerParse afterFm = none → tl = afterFm) ∧
        (∀ hdr body, headerParse afterFm = some (hdr, body) → tl = body)) :=
  c6_suffix_preserved ⟨2025, 1, 2⟩ (str "---\nt: T\n---\n# H\n\n> Q\n\nbody")
    [str "E"] (by decide)


theorem drop_peel' (l : Chars) (a b : Nat) : l.drop (a + b) = (l.drop a).drop b :=
  (List.drop_drop b a l).symm

theorem dropWhile_append_all {p : Char → Bool} {xs : Chars} {y : Char} {r : Chars}
    (hxs : ∀ c ∈ xs, p c = true) (hy : p y = false) :
    (xs ++ y :: r).dropWhile p = y :: r := by
  induction xs with
  | nil => simp [List.dropWhile_cons, hy]
  | cons c cs ih =>
    rw [List.cons_append, List.dropWhile_cons, hxs c (List.mem_cons_self c cs),
      ih (fun d hd => hxs d (List.mem_cons_of_mem c hd))]
    simp

/-- The `lastUpdated:` rewrite touches exactly the first `lastUpdated:` line
and leaves the text before it and the lines after it unchanged. -/
theorem replaceLastUpdated_frame (today : SDate) (a b c : Chars)
    (ha : ¬ str "lastUpdated: " <:+: a) (hb : '\n' ∉ b) :
    replaceLastUpdated (a ++ (str "lastUpdated: " ++ (b ++ '\n' :: c))) today =
    a ++ (str "lastUpdated: " ++ (isoDateChars today ++ '\n' :: c)) := by
  have hno : ∀ i, i < a.length → ¬ str "lastUpdated: " <+:
      (a.drop i ++ (str "lastUpdated: " ++ (b ++ '\n' :: c))) := by
    intro i hi
    apply not_prefix_append_of (drop_ne_nil_of_lt hi)
      (not_infix_of_suffix (List.drop_suffix i _) ha)
    intro j hj0 hj hsp
    have hp : (str "lastUpdated: ").drop j <+: str "lastUpdated: " :=
      prefix_of_prefix_append hsp.2 (by rw [List.length_drop]; omega)
    exact (by decide : ∀ j, j < (str "lastUpdated: ").length → 0 < j →
      ¬ (str "lastUpdated: ").drop j <+: str "lastUpdated: ") j hj hj0 hp
  have hidx : idxOf? (str "lastUpdated: ")
      (a ++ (str "lastUpdated: " ++ (b ++ '\n' :: c))) = some a.length := by
    rw [idxOf?_append_of_no_hit hno,
      idxOf?_of_prefix (by decide) (⟨b ++ '\n' :: c, rfl⟩ :
        str "lastUpdated: " <+: str "lastUpdated: " ++ (b ++ '\n' :: c))]
    simp
  have hall : ∀ d ∈ b, (fun x => decide (x ≠ '\n')) d = true := fun d hd =>
    decide_eq_true (fun hh => hb (hh ▸ hd))
  simp only [replaceLastUpdated, hidx]
  rw [drop_peel', List.take_left, List.drop_left, List.drop_left,
    dropWhile_append_all hall (by decide)]
  simp [List.append_assoc]

/-- The frontmatter pattern captures exactly the body up to the first
`\n---\n` delimiter. -/
theorem fmParse_exact (fmBody after : Chars)
    (h1 : ¬ str "\n---\n" <:+: fmBody)
    (h2 : ¬ str "\n---" <:+ fmBody) :
    fmParse (str "---\n" ++ (fmBody ++ (str "\n---\n" ++ after))) =
    some (fmBody, after) := by
  have hno : ∀ i, i < fmBody.length → ¬ str "\n---\n" <+:
      (fmBody.drop i ++ (str "\n---\n" ++ after)) := by
    intro i hi
    apply not_prefix_append_of (drop_ne_nil_of_lt hi)
      (not_infix_of_suffix (List.drop_suffix i _) h1)
    intro j hj0 hj hsp
    have hj' : j < 5 := hj
    interval_cases j
    · exact absurd (prefix_of_prefix_append hsp.2 (by decide)) (by decide)
    · exact absurd (prefix_of_prefix_append hsp.2 (by decide)) (by decide)
    · exact absurd (prefix_of_prefix_append hsp.2 (by decide)) (by decide)
    · exact h2 (hsp.1.trans (List.drop_suffix i fmBody))
  have hidx : idxOf? (str "\n---\n") (fmBody ++ (str "\n---\n" ++ after)) =
      some fmBody.length := by
    rw [idxOf?_append_of_no_hit hno,
      idxOf?_of_prefix (by decide) (⟨after, rfl⟩ :
        str "\n---\n" <+: str "\n---\n" ++ after)]
    simp
  simp only [fmParse, dropLit_append, hidx, Option.map]
  rw [drop_peel', List.take_left, List.drop_left, List.drop_left]

/-- C8: merging into a file with a recognized preamble rewrites only the
`lastUpdated:` line of the preamble to the merge date; the keys before it
and after it (title, description, and any others) appear verbatim in the
written file's preamble, whose delimiters are preserved. -/
theorem c8_preamble_frame (today : SDate) (a b c after : Chars)
    (entries : List Chars) (hne : entries ≠ [])
    (ha : ¬ str "lastUpdated: " <:+: a) (hb : '\n' ∉ b)
    (h1 : ¬ str "\n---\n" <:+: (a ++ (str "lastUpdated: " ++ (b ++ '\n' :: c))))
    (h2 : ¬ str "\n---" <:+ (a ++ (str "lastUpdated: " ++ (b ++ '\n' :: c)))) :
    ∃ rest, updateMonthlyFile today
        (some (str "---\n" ++ ((a ++ (str "lastUpdated: " ++ (b ++ '\n' :: c))) ++
          (str "\n---\n" ++ after)))) entries =
      some ((str "---\n" ++ ((a ++ (str "lastUpdated: " ++ (isoDateChars today ++
        '\n' :: c))) ++ str "\n---\n\n")) ++ rest) := by
  have hfmx := fmParse_exact (a ++ (str "lastUpdated: " ++ (b ++ '\n' :: c)))
    after h1 h2
  have hrep := replaceLastUpdated_frame today a b c ha hb
  cases hh : headerParse after with
  | none =>
    refine ⟨joinNL entries ++ (str "\n" ++ after), ?_⟩
    simp only [updateMonthlyFile]
    rw [if_neg (by simpa [List.isEmpty_iff] using hne), hfmx]
    dsimp only
    rw [hh, hrep]
    simp [List.append_assoc]
  | some q =>
    obtain ⟨hdr, body⟩ := q
    refine ⟨hdr ++ (joinNL entries ++ (str "\n" ++ body)), ?_⟩
    simp only [updateMonthlyFile]
    rw [if_neg (by simpa [List.isEmpty_iff] using hne), hfmx]
    dsimp only
    rw [hh, hrep]
    simp [List.append_assoc]

theorem c8_preamble_frame_witness :
    ∃ rest, updateMonthlyFile ⟨2025, 2, 3⟩
        (some (str "---\n" ++ ((str "title: T\ndescription: D\n" ++
          (str "lastUpdated: " ++ (str "2024-12-31" ++ '\n' :: []))) ++
          (str "\n---\n" ++ str "# H\n\n> Q\n\nbody")))) [str "E"] =
      some ((str "---\n" ++ ((str "title: T\ndescription: D\n" ++
        (str "lastUpdated: " ++ (isoDateChars ⟨2025, 2, 3⟩ ++
        '\n' :: []))) ++ str "\n---\n\n")) ++ rest) :=
  c8_preamble_frame ⟨2025, 2, 3⟩ (str "title: T\ndescription: D\n")
    (str "2024-12-31") [] (str "# H\n\n> Q\n\nbody") [str "E"]
    (by decide) (by decide) (by decide) (by decide) (by decide)


theorem matchHeadingAt_sound {s : Chars} {n : Nat} {u t rest : Chars}
    (h : matchHeadingAt s = some (n, u, t, rest)) :
    ∃ w, w ≠ [] ∧ (∀ c ∈ w, c.isDigit = true) ∧ u = railsPullLit ++ w := by
  cases h1 : dropLit (str "## [#") s with
  | none =>
    simp only [matchHeadingAt, h1] at h
    exact Option.noConfusion h
  | some r1 =>
    by_cases he1 : (r1.takeWhile Char.isDigit).isEmpty = true
    · simp only [matchHeadingAt, h1] at h
      rw [if_pos he1] at h
      exact Option.noConfusion h
    · cases h2 : dropLit (str "](")
          (r1.drop (r1.takeWhile Char.isDigit).length) with
      | none =>
        simp only [matchHeadingAt, h1, h2] at h
        rw [if_neg he1] at h
        exact Option.noConfusion h
      | some r2 =>
        cases h3 : dropLit railsPullLit r2 with
        | none =>
          simp only [matchHeadingAt, h1, h2, h3] at h
          rw [if_neg he1] at h
          exact Option.noConfusion h
        | some r3 =>
          by_cases he2 : (r3.takeWhile Char.isDigit).isEmpty = true
          · simp only [matchHeadingAt, h1, h2, h3] at h
            rw [if_neg he1, if_pos he2] at h
            exact Option.noConfusion h
          · cases h4 : dropLit (str ") ")
                (r3.drop (r3.takeWhile Char.isDigit).length) with
            | none =>
              simp only [matchHeadingAt, h1, h2, h3, h4] at h
              rw [if_neg he1, if_neg he2] at h
              exact Option.noConfusion h
            | some r4 =>
              by_cases he3 : (r4.takeWhile (· ≠ '\n')).isEmpty = true
              · simp only [matchHeadingAt, h1, h2, h3, h4] at h
                rw [if_neg he1, if_neg he2, if_pos he3] at h
                exact Option.noConfusion h
              · simp only [matchHeadingAt, h1, h2, h3, h4] at h
                rw [if_neg he1, if_neg he2, if_neg he3] at h
                have h5 := Option.some.inj h
                refine ⟨r3.takeWhile Char.isDigit, ?_, ?_, ?_⟩
                · simpa [List.isEmpty_iff] using he2
                · intro ch hch
                  exact List.mem_takeWhile_imp hch
                · exact (congrArg (fun p => p.2.1) h5).symm

theorem headScan_mem {f : Nat} {s : Chars} {m : HeadingM}
    (h : m ∈ headScan f s) :
    ∃ r, matchHeadingAt m.suffix = some (m.num, m.url, m.title, r) := by
  induction f generalizing s with
  | zero => simp [headScan] at h
  | succ f ih =>
    cases s with
    | nil => simp [headScan] at h
    | cons c cs =>
      cases hm : matchHeadingAt (c :: cs) with
      | none =>
        rw [headScan_cons_none hm] at h
        exact ih h
      | some v =>
        obtain ⟨n, u, t, r⟩ := v
        rw [headScan_cons_some hm] at h
        rcases List.mem_cons.mp h with h1 | h1
        · subst h1
          exact ⟨r, hm⟩
        · exact ih h1

theorem extractLoop_mem_url {now : SDate} {ms : List HeadingM} {pr : PRData}
    (h : pr ∈ (extractLoop now ms).1) :
    ∃ m, m ∈ ms ∧ pr.url = m.url := by
  induction ms with
  | nil => simp [extractLoop] at h
  | cons m rest ih =>
    simp only [extractLoop] at h
    split at h
    · obtain ⟨m', hm', hu⟩ := ih h
      exact ⟨m', List.mem_cons_of_mem m hm', hu⟩
    · split at h
      · obtain ⟨m', hm', hu⟩ := ih h
        exact ⟨m', List.mem_cons_of_mem m hm', hu⟩
      · split at h
        · obtain ⟨m', hm', hu⟩ := ih h
          exact ⟨m', List.mem_cons_of_mem m hm', hu⟩
        · rcases List.mem_cons.mp h with h1 | h1
          · subst h1
            exact ⟨m, List.mem_cons_self m rest, rfl⟩
          · obtain ⟨m', hm', hu⟩ := ih h1
            exact ⟨m', List.mem_cons_of_mem m hm', hu⟩

/-- C10 (amended): the Structured-Data Extractor only ever emits records
whose URL capture has the exact canonical form
`https://github.com/rails/rails/pull/{digits}`; however, a rendered block
whose URL merely begins with that form is not silently omitted — the match
truncates it, so the original claim's "no record for every other URL shape"
fails (`c10_counterexample`). -/
theorem c10_url_soundness (now : SDate) (content : Chars) (pr : PRData)
    (h : pr ∈ (extractPRsFromMarkdown now content).1) :
    ∃ w, w ≠ [] ∧ (∀ c ∈ w, c.isDigit = true) ∧ pr.url = railsPullLit ++ w := by
  simp only [extractPRsFromMarkdown] at h
  obtain ⟨m, hm, hu⟩ := extractLoop_mem_url h
  obtain ⟨r, hr⟩ := headScan_mem hm
  obtain ⟨w, hw1, hw2, hw3⟩ := matchHeadingAt_sound hr
  exact ⟨w, hw1, hw2, hu.trans hw3⟩

set_option maxRecDepth 20000 in
theorem c10_url_soundness_witness :
    ∃ w, w ≠ [] ∧ (∀ c ∈ w, c.isDigit = true) ∧
      (⟨123, str "Add feature", railsPullLit ++ natChars 123, ⟨2025, 12, 17⟩,
        str "alice", str "https://github.com/alice", str "A summary."⟩ :
        PRData).url = railsPullLit ++ w :=
  c10_url_soundness ⟨2025, 1, 1⟩ (formatPREntry
      ⟨123, str "Add feature", railsPullLit ++ natChars 123, some ⟨2025, 12, 17⟩,
        some (str "alice", str "https://github.com/alice")⟩
      (str "A summary."))
    ⟨123, str "Add feature", railsPullLit ++ natChars 123, ⟨2025, 12, 17⟩,
      str "alice", str "https://github.com/alice", str "A summary."⟩
    (by decide)

set_option maxRecDepth 20000 in
/-- C10 counterexample: a rendered block whose heading URL continues past
the canonical digit run (`.../pull/12) extra`) is not silently omitted: the
extractor emits a record anyway, with the URL truncated at the digit run and
the overflow text absorbed into the title. -/
theorem c10_counterexample :
    extractPRsFromMarkdown ⟨2025, 1, 1⟩ (formatPREntry
      ⟨7, str "My title", railsPullLit ++ (natChars 12 ++ str ") extra"),
        some ⟨2025, 12, 17⟩, some (str "alice", str "https://github.com/a")⟩
      (str "A summary.")) =
    ([⟨7, str "extra) My title", railsPullLit ++ natChars 12, ⟨2025, 12, 17⟩,
      str "alice", str "https://github.com/a", str "A summary."⟩], []) := by decide


theorem insertLe_perm {α : Type} (le : α → α → Bool) (x : α) (l : List α) :
    List.Perm (insertLe le x l) (x :: l) := by
  induction l with
  | nil => exact List.Perm.refl _
  | cons y ys ih =>
    rw [insertLe]
    by_cases h : le x y = true
    · rw [if_pos h]
    · rw [if_neg h]
      exact (List.Perm.cons y ih).trans (List.Perm.swap x y ys)

theorem sortByLe_perm {α : Type} (le : α → α → Bool) (l : List α) :
    List.Perm (sortByLe le l) l := by
  induction l with
  | nil => exact List.Perm.refl _
  | cons x xs ih =>
    exact (insertLe_perm le x (sortByLe le xs)).trans (List.Perm.cons x ih)

theorem insertLe_sorted {α : Type} (le : α → α → Bool)
    (htot : ∀ a b, le a b = true ∨ le b a = true)
    (htrans : ∀ a b c, le a b = true → le b c = true → le a c = true)
    (x : α) (l : List α)
    (hl : l.Pairwise (fun a b => le a b = true)) :
    (insertLe le x l).Pairwise (fun a b => le a b = true) := by
  induction l with
  | nil => simp [insertLe]
  | cons y ys ih =>
    rw [insertLe]
    rcases List.pairwise_cons.mp hl with ⟨hy, hys⟩
    by_cases h : le x y = true
    · rw [if_pos h]
      refine List.pairwise_cons.mpr ⟨?_, hl⟩
      intro b hb
      rcases List.mem_cons.mp hb with h1 | h1
      · subst h1; exact h
      · exact htrans x y b h (hy b h1)
    · rw [if_neg h]
      refine List.pairwise_cons.mpr ⟨?_, ih hys⟩
      intro b hb
      have hmem := (insertLe_perm le x ys).mem_iff.mp hb
      rcases List.mem_cons.mp hmem with h1 | h1
      · subst h1
        rcases htot b y with h2 | h2
        · exact absurd h2 h
        · exact h2
      · exact hy b h1

theorem sortByLe_sorted {α : Type} (le : α → α → Bool)
    (htot : ∀ a b, le a b = true ∨ le b a = true)
    (htrans : ∀ a b c, le a b = true → le b c = true → le a c = true)
    (l : List α) :
    (sortByLe le l).Pairwise (fun a b => le a b = true) := by
  induction l with
  | nil => exact List.Pairwise.nil
  | cons x xs ih => exact insertLe_sorted le htot htrans x (sortByLe le xs) ih

theorem prDescLe_total : ∀ a b, prDescLe a b = true ∨ prDescLe b a = true := by
  intro a b
  simp only [prDescLe, decide_eq_true_eq]
  omega

theorem prDescLe_trans : ∀ a b c, prDescLe a b = true → prDescLe b c = true →
    prDescLe a c = true := by
  intro a b c
  simp only [prDescLe, decide_eq_true_eq]
  omega

/-- C2: when more than 50 records parse out of the partition files, the
aggregated store keeps its `lastUpdated` stamp, reports `totalCount = 50`,
and its items are 50 records sorted by merge date descending that, together
with some leftover, permute the full aggregation — every dropped record is
no newer than every kept one. -/
theorem c2_retention_cap (now : SDate) (files : List (Chars × Chars))
    (h : 50 < (allMonthlyPRs now files).length) :
    (extractAndSavePRsFromMonthlyFiles now files).lastUpdated = now ∧
    (extractAndSavePRsFromMonthlyFiles now files).totalCount = 50 ∧
    (extractAndSavePRsFromMonthlyFiles now files).items.length = 50 ∧
    List.Pairwise (fun a b => dateKey b.mergedAt ≤ dateKey a.mergedAt)
      (extractAndSavePRsFromMonthlyFiles now files).items ∧
    ∃ rest,
      List.Perm ((extractAndSavePRsFromMonthlyFiles now files).items ++ rest)
        (allMonthlyPRs now files) ∧
      ∀ a ∈ (extractAndSavePRsFromMonthlyFiles now files).items, ∀ b ∈ rest,
        dateKey b.mergedAt ≤ dateKey a.mergedAt := by
  have hperm := sortByLe_perm prDescLe (allMonthlyPRs now files)
  have hlen := hperm.length_eq
  have hsorted := sortByLe_sorted prDescLe prDescLe_total prDescLe_trans
    (allMonthlyPRs now files)
  have hitems : (extractAndSavePRsFromMonthlyFiles now files).items =
      (sortByLe prDescLe (allMonthlyPRs now files)).take 50 := rfl
  have htc : (extractAndSavePRsFromMonthlyFiles now files).totalCount =
      ((sortByLe prDescLe (allMonthlyPRs now files)).take 50).length := rfl
  have hlen50 : ((sortByLe prDescLe (allMonthlyPRs now files)).take 50).length
      = 50 := by
    rw [List.length_take]
    omega
  refine ⟨rfl, ?_, ?_, ?_, ?_⟩
  · rw [htc, hlen50]
  · rw [hitems, hlen50]
  · rw [hitems]
    exact ((hsorted.sublist (List.take_sublist 50 _)).imp
      (fun hab => of_decide_eq_true hab))
  · refine ⟨(sortByLe prDescLe (allMonthlyPRs now files)).drop 50, ?_, ?_⟩
    · rw [hitems, List.take_append_drop]
      exact hperm
    · have hsplit : List.Pairwise (fun a b => prDescLe a b = true)
          ((sortByLe prDescLe (allMonthlyPRs now files)).take 50 ++
           (sortByLe prDescLe (allMonthlyPRs now files)).drop 50) := by
        rw [List.take_append_drop]
        exact hsorted
      intro a ha b hb
      rw [hitems] at ha
      exact of_decide_eq_true
        ((List.pairwise_append.mp hsplit).2.2 a ha b hb)

set_option maxRecDepth 40000 in
theorem c2_retention_cap_witness :
    50 < (allMonthlyPRs ⟨2025, 1, 1⟩ ((List.range 60).map (fun i =>
      (natChars i ++ str ".md", formatPREntry ⟨i, str "T",
        railsPullLit ++ natChars i, some ⟨2025, 1, 1 + i % 28⟩,
        some (str "a", str "u")⟩ (str "S"))))).length ∧
    (extractAndSavePRsFromMonthlyFiles ⟨2025, 1, 1⟩ ((List.range 60).map (fun i =>
      (natChars i ++ str ".md", formatPREntry ⟨i, str "T",
        railsPullLit ++ natChars i, some ⟨2025, 1, 1 + i % 28⟩,
        some (str "a", str "u")⟩ (str "S"))))).totalCount = 50 :=
  ⟨by decide, (c2_retention_cap ⟨2025, 1, 1⟩ ((List.range 60).map (fun i =>
      (natChars i ++ str ".md", formatPREntry ⟨i, str "T",
        railsPullLit ++ natChars i, some ⟨2025, 1, 1 + i % 28⟩,
        some (str "a", str "u")⟩ (str "S")))) (by decide)).2.1⟩


theorem matchNumAt_spec (w r : Chars) (hw1 : w ≠ [])
    (hw2 : ∀ c ∈ w, c.isDigit = true) :
    matchNumAt (str "## [#" ++ (w ++ (']' :: r))) = some (digitsToNat w, r) := by
  rw [matchNumAt, dropLit_append]
  simp only
  rw [takeWhile_append_all hw2 (by decide : Char.isDigit ']' = false)]
  rw [if_neg (by simpa [List.isEmpty_iff] using hw1), List.drop_left]
  rfl

theorem matchNumAt_sound {s : Chars} {n : Nat} {rest : Chars}
    (h : matchNumAt s = some (n, rest)) :
    ∃ w, w ≠ [] ∧ (∀ c ∈ w, c.isDigit = true) ∧ digitsToNat w = n ∧
      s = str "## [#" ++ (w ++ (']' :: rest)) := by
  simp only [matchNumAt] at h
  split at h
  · exact Option.noConfusion h
  · rename_i r h1
    split at h
    · exact Option.noConfusion h
    · rename_i he
      split at h
      · rename_i cs h2
        have h5 := Option.some.inj h
        have hn : digitsToNat (r.takeWhile Char.isDigit) = n :=
          congrArg Prod.fst h5
        have hr : cs = rest := congrArg Prod.snd h5
        have hrr : r = r.takeWhile Char.isDigit ++ (']' :: cs) := by
          conv_lhs => rw [← List.takeWhile_append_dropWhile
            (p := Char.isDigit) (l := r), ← drop_takeWhile_length, h2]
        refine ⟨r.takeWhile Char.isDigit, ?_,
          fun d hd => List.mem_takeWhile_imp hd, hn, ?_⟩
        · intro hnil
          rw [hnil] at he
          exact he rfl
        · rw [dropLit_eq_some_iff.mp h1]
          congr 1
          rw [hr] at hrr
          exact hrr
      · exact Option.noConfusion h

theorem numScan_cons_none {f : Nat} {c : Char} {cs : Chars}
    (h : matchNumAt (c :: cs) = none) :
    numScan (f + 1) (c :: cs) = numScan f cs := by
  rw [numScan, h]

theorem numScan_cons_some {f : Nat} {c : Char} {cs : Chars} {n : Nat}
    {rest : Chars} (h : matchNumAt (c :: cs) = some (n, rest)) :
    numScan (f + 1) (c :: cs) = n :: numScan f rest := by
  rw [numScan, h]

theorem numScan_sound {f : Nat} {s : Chars} {n : Nat} (h : n ∈ numScan f s) :
    ∃ w, w ≠ [] ∧ (∀ c ∈ w, c.isDigit = true) ∧ digitsToNat w = n ∧
      (str "## [#" ++ (w ++ [']'])) <:+: s := by
  induction f generalizing s with
  | zero => simp [numScan] at h
  | succ f ih =>
    cases s with
    | nil => simp [numScan] at h
    | cons c cs =>
      cases hm : matchNumAt (c :: cs) with
      | none =>
        rw [numScan_cons_none hm] at h
        obtain ⟨w, hw1, hw2, hw3, hw4⟩ := ih h
        exact ⟨w, hw1, hw2, hw3, hw4.trans (List.infix_cons (List.infix_refl cs))⟩
      | some v =>
        obtain ⟨n0, rest⟩ := v
        rw [numScan_cons_some hm] at h
        rcases List.mem_cons.mp h with h1 | h1
        · subst h1
          obtain ⟨w, hw1, hw2, hw3, hw4⟩ := matchNumAt_sound hm
          refine ⟨w, hw1, hw2, hw3, ?_⟩
          rw [hw4]
          exact List.IsPrefix.isInfix
            ⟨rest, by simp [List.append_assoc]⟩
        · obtain ⟨w, hw1, hw2, hw3, hw4⟩ := ih h1
          obtain ⟨w0, -, -, -, hs⟩ := matchNumAt_sound hm
          refine ⟨w, hw1, hw2, hw3, hw4.trans ?_⟩
          rw [hs]
          exact List.IsSuffix.isInfix
            ⟨str "## [#" ++ (w0 ++ [']']), by simp [List.append_assoc]⟩

theorem matchNumAt_of_prefix {s w : Chars} (hw1 : w ≠ [])
    (hw2 : ∀ c ∈ w, c.isDigit = true)
    (hp : (str "## [#" ++ (w ++ [']'])) <+: s) :
    ∃ r, s = str "## [#" ++ (w ++ (']' :: r)) ∧
      matchNumAt s = some (digitsToNat w, r) := by
  obtain ⟨t, ht⟩ := hp
  have he : s = str "## [#" ++ (w ++ (']' :: t)) := by
    rw [← ht]
    simp [List.append_assoc]
  refine ⟨t, he, ?_⟩
  rw [he]
  exact matchNumAt_spec w t hw1 hw2

theorem numScan_fuel : ∀ {f g : Nat} {s : Chars}, s.length ≤ f → s.length ≤ g →
    numScan f s = numScan g s := by
  intro f
  induction f with
  | zero =>
    intro g s hf hg
    have h0 : s = [] := List.eq_nil_of_length_eq_zero (by omega)
    subst h0
    cases g <;> rfl
  | succ f ih =>
    intro g s hf hg
    cases s with
    | nil => cases g <;> rfl
    | cons c cs =>
      simp only [List.length_cons] at hf hg
      cases g with
      | zero => exact absurd hg (by omega)
      | succ g' =>
        cases hm : matchNumAt (c :: cs) with
        | none =>
          rw [numScan_cons_none hm, numScan_cons_none hm]
          exact ih (by omega) (by omega)
        | some v =>
          obtain ⟨n, rest⟩ := v
          rw [numScan_cons_some hm, numScan_cons_some hm]
          obtain ⟨w, hw1, -, -, hs⟩ := matchNumAt_sound hm
          have hl := congrArg List.length hs
          simp only [List.length_cons, List.length_append] at hl
          have hL : (str "## [#").length = 5 := rfl
          rw [hL] at hl
          have hw0 : 0 < w.length := List.length_pos.mpr hw1
          congr 1
          exact ih (by omega) (by omega)


theorem numScan_complete {n : Nat} : ∀ (N : Nat) (s : Chars), s.length ≤ N →
    (∃ w, w ≠ [] ∧ (∀ c ∈ w, c.isDigit = true) ∧ digitsToNat w = n ∧
      (str "## [#" ++ (w ++ [']'])) <:+: s) →
    n ∈ numScan s.length s := by
  intro N
  induction N with
  | zero =>
    intro s hs hocc
    obtain ⟨w, hw1, hw2, hw3, hw4⟩ := hocc
    have h0 : s = [] := List.eq_nil_of_length_eq_zero (by omega)
    subst h0
    rw [List.infix_nil] at hw4
    exact absurd (List.append_eq_nil.mp hw4).1 (by decide)
  | succ N ih =>
    intro s hs hocc
    obtain ⟨w, hw1, hw2, hw3, hw4⟩ := hocc
    obtain ⟨i, hi, hp⟩ := infix_iff_exists_drop.mp hw4
    cases s with
    | nil =>
      rw [List.drop_nil] at hp
      obtain ⟨t, ht⟩ := hp
      rcases List.append_eq_nil.mp ht with ⟨ha, -⟩
      exact absurd (List.append_eq_nil.mp ha).1 (by decide)
    | cons c cs =>
      cases hm : matchNumAt (c :: cs) with
      | none =>
        have hi0 : i ≠ 0 := by
          intro h0
          subst h0
          rw [List.drop_zero] at hp
          obtain ⟨r, -, hms⟩ := matchNumAt_of_prefix hw1 hw2 hp
          rw [hms] at hm
          exact Option.noConfusion hm
        have hocc2 : (str "## [#" ++ (w ++ [']'])) <:+: cs := by
          apply infix_iff_exists_drop.mpr
          refine ⟨i - 1, by simp only [List.length_cons] at hi; omega, ?_⟩
          have hd : (c :: cs).drop i = cs.drop (i - 1) := by
            cases i with
            | zero => exact absurd rfl hi0
            | succ j => simp
          rwa [hd] at hp
        rw [show (c :: cs).length = cs.length + 1 from rfl, numScan_cons_none hm]
        exact ih cs (by simp only [List.length_cons] at hs; omega)
          ⟨w, hw1, hw2, hw3, hocc2⟩
      | some v =>
        obtain ⟨n0, rest⟩ := v
        obtain ⟨w0, hw01, hw02, hw03, hs0⟩ := matchNumAt_sound hm
        have hl := congrArg List.length hs0
        simp only [List.length_cons, List.length_append] at hl
        have hL : (str "## [#").length = 5 := rfl
        rw [hL] at hl
        have hw00 : 0 < w0.length := List.length_pos.mpr hw01
        rw [show (c :: cs).length = cs.length + 1 from rfl, numScan_cons_some hm]
        by_cases hi0 : i = 0
        · subst hi0
          rw [List.drop_zero] at hp
          obtain ⟨r, -, hms⟩ := matchNumAt_of_prefix hw1 hw2 hp
          rw [hms] at hm
          have h5 := Option.some.inj hm
          have hn0 : digitsToNat w = n0 := congrArg Prod.fst h5
          rw [hw3] at hn0
          rw [← hn0]
          exact List.mem_cons_self _ _
        · have hnomid : ¬ i < 6 + w0.length := by
            intro hlt
            rw [hs0] at hp
            have hLc : str "## [#" = ['#', '#', ' ', '[', '#'] := rfl
            rw [hLc] at hp
            have hi1 : 1 ≤ i := Nat.one_le_iff_ne_zero.mpr hi0
            by_cases hile : i ≤ 4
            · interval_cases i
              · obtain ⟨t, ht⟩ := hp
                simp at ht
              · obtain ⟨t, ht⟩ := hp
                simp at ht
              · obtain ⟨t, ht⟩ := hp
                simp at ht
              · cases hww : w0 with
                | nil => exact hw01 hww
                | cons d w0t =>
                  rw [hww] at hp
                  obtain ⟨t, ht⟩ := hp
                  simp only [List.drop_succ_cons, List.drop_zero,
                    List.cons_append, List.append_assoc] at ht
                  have hd := (List.cons.injEq _ _ _ _).mp ht
                  have hd2 := (List.cons.injEq _ _ _ _).mp hd.2
                  have hdig := hw02 d (by rw [hww]; exact List.mem_cons_self d w0t)
                  rw [← hd2.1] at hdig
                  exact absurd hdig (by decide)
            · have h5le : 5 ≤ i := by omega
              have hj : i - 5 < (w0 ++ [']']).length := by
                simp only [List.length_append, List.length_singleton]
                omega
              have hdropeq : ((['#', '#', ' ', '[', '#'] : Chars) ++
                  (w0 ++ (']' :: rest))).drop i =
                  (w0 ++ [']']).drop (i - 5) ++ rest := by
                rw [List.drop_append_eq_append_drop]
                rw [List.drop_eq_nil_of_le
                  (by simp only [List.length_cons, List.length_nil]; omega)]
                rw [List.nil_append]
                have hre : w0 ++ (']' :: rest) = (w0 ++ [']']) ++ rest := by
                  simp [List.append_assoc]
                rw [hre, drop_append_le (by
                  simp only [List.length_append, List.length_singleton]
                  simp only [List.length_cons, List.length_nil]
                  omega)]
                simp
              rw [hdropeq] at hp
              have hhash : '#' ∉ w0 ++ [']'] := by
                intro hmem
                rcases List.mem_append.mp hmem with hx | hx
                · exact absurd (hw02 '#' hx) (by decide)
                · rcases List.mem_singleton.mp hx with hx2
                  exact absurd hx2 (by decide)
              exact no_hit_of_head_not_mem
                (show (str "## [#" ++ (w ++ [']'])).head? = some '#' from rfl)
                hhash (i - 5) hj hp
          have hige : 6 + w0.length ≤ i := by omega
          have hocc2 : (str "## [#" ++ (w ++ [']'])) <:+: rest := by
            apply infix_iff_exists_drop.mpr
            refine ⟨i - (6 + w0.length), by
              simp only [List.length_cons] at hi
              omega, ?_⟩
            rw [hs0] at hp
            have hLc : str "## [#" = ['#', '#', ' ', '[', '#'] := rfl
            rw [hLc] at hp
            have hdropeq : ((['#', '#', ' ', '[', '#'] : Chars) ++
                (w0 ++ (']' :: rest))).drop i = rest.drop (i - (6 + w0.length)) := by
              rw [List.drop_append_eq_append_drop]
              rw [List.drop_eq_nil_of_le
                (by simp only [List.length_cons, List.length_nil]; omega)]
              rw [List.nil_append]
              have hre : w0 ++ (']' :: rest) = (w0 ++ [']']) ++ rest := by
                simp [List.append_assoc]
              rw [hre, List.drop_append_eq_append_drop]
              rw [List.drop_eq_nil_of_le (by
                simp only [List.length_append, List.length_singleton]
                simp only [List.length_cons, List.length_nil]
                omega)]
              rw [List.nil_append]
              congr 1
              simp only [List.length_append, List.length_singleton]
              simp only [List.length_cons, List.length_nil]
              omega
            rwa [hdropeq] at hp
          have hfuel : numScan cs.length rest = numScan rest.length rest :=
            numScan_fuel (by omega) (le_refl _)
          rw [hfuel]
          refine List.mem_cons_of_mem n0 (ih rest (by
            simp only [List.length_cons] at hs
            omega) ⟨w, hw1, hw2, hw3, hocc2⟩)

theorem mem_insertSet {l : List Nat} {x n : Nat} :
    n ∈ insertSet l x ↔ n ∈ l ∨ n = x := by
  rw [insertSet]
  by_cases h : x ∈ l
  · rw [if_pos h]
    constructor
    · exact Or.inl
    · rintro (h1 | h1)
      · exact h1
      · rw [h1]; exact h
  · rw [if_neg h]
    simp

theorem mem_foldl_insertSet (l : List Nat) : ∀ (acc : List Nat) (n : Nat),
    n ∈ l.foldl insertSet acc ↔ n ∈ acc ∨ n ∈ l := by
  induction l with
  | nil =>
    intro acc n
    simp
  | cons x xs ih =>
    intro acc n
    rw [List.foldl_cons, ih, mem_insertSet]
    constructor
    · rintro ((h1 | h1) | h1)
      · exact Or.inl h1
      · exact Or.inr (by rw [h1]; exact List.mem_cons_self x xs)
      · exact Or.inr (List.mem_cons_of_mem x h1)
    · rintro (h1 | h1)
      · exact Or.inl (Or.inl h1)
      · rcases List.mem_cons.mp h1 with h2 | h2
        · exact Or.inl (Or.inr h2)
        · exact Or.inr h2

/-- C3 (amended): `getExistingPRNumbers` returns the empty set when no
partition file exists; otherwise it contains exactly the identifiers `n`
whose actual dedup pattern `## [#{digits}]` — closing with a bracket, not
the claim's `## [#{digits}](` — occurs anywhere in the file content (all
occurrences, order-independent), and malformed regions simply contribute no
matches (the scan is total). -/
theorem c3_existing_ids (content : Chars) (n : Nat) :
    getExistingPRNumbers none = [] ∧
    (n ∈ getExistingPRNumbers (some content) ↔
      ∃ w, w ≠ [] ∧ (∀ c ∈ w, c.isDigit = true) ∧ digitsToNat w = n ∧
        (str "## [#" ++ (w ++ [']'])) <:+: content) := by
  refine ⟨rfl, ?_⟩
  rw [show getExistingPRNumbers (some content)
      = (prNumberCaptures content).foldl insertSet [] from rfl,
    mem_foldl_insertSet]
  constructor
  · rintro (h | h)
    · cases h
    · exact numScan_sound h
  · intro h
    exact Or.inr (numScan_complete content.length content (le_refl _) h)

/-- C3 counterexample: the heading `## [#7] x` contains no `## [#7](` — the
pattern the claim states — yet the dedup scan registers the identifier 7,
because the source pattern ends at the closing bracket. -/
theorem c3_counterexample :
    getExistingPRNumbers (some (str "## [#7] x")) = [7] ∧
    ¬ str "## [#7](" <:+: str "## [#7] x" := by decide

end RailsPRDigest
